import Mathlib

/-
Verification of the thumbnailer sprite-sheet packing engine
(pkg/thumbnailer/thumbnailer.go) against its natural-language
specification.

The Go code is shallowly embedded: Media mirrors the persisted record
struct (the transient unexported image field is carried separately,
as the code itself does through MediaContainer wrappers), Go slices
become lists, Go ints hold only non-negative pixel quantities here and
are embedded as Nat, and the filesystem / object-storage collaborators
become explicit environment functions on a directory state.  Functions
keep their Go names where Lean allows.
-/

set_option maxRecDepth 8000

namespace Thumbnailer

/-- Raw file contents (a byte is a Nat; only equality of byte strings matters). -/
abbrev Bytes := List Nat

/-- Decoded raster image: bounds plus an abstract pixel-content tag.
Models image.Image as far as the engine observes it (Bounds().Dx/Dy and
the pixels that are copied into the sheet canvas). -/
structure Img where
  width : Nat
  height : Nat
  pix : Nat
  deriving DecidableEq, Repr

/-- Media mirrors the Go struct of the same name: one entry per tracked
image file in .thumbs.yml.  The unexported transient image field
(tagged yaml:"-") is not part of the persisted record and is threaded
separately during generation. -/
structure Media where
  Path : String := ""
  Width : Nat := 0
  Height : Nat := 0
  ThumbPath : String := ""
  ThumbXOffset : Nat := 0
  ThumbYOffset : Nat := 0
  ThumbWidth : Nat := 0
  ThumbHeight : Nat := 0
  ThumbTotalWidth : Nat := 0
  ThumbTotalHeight : Nat := 0
  Blurhash : String := ""
  BlurhashImageBase64 : String := ""
  deriving DecidableEq, Repr

instance : Inhabited Media := ⟨{}⟩

/-- Constant maxThumbSize from the Go source (324 = 162 * 2). -/
def maxThumbSize : Nat := 324

/-- Constant maxPerRow from the Go source. -/
def maxPerRow : Nat := 10

/-- Constant maxRows from the Go source. -/
def maxRows : Nat := 5

/-- Go func contains(arr []string, needle string) bool. -/
def contains (arr : List String) (needle : String) : Bool :=
  arr.any (fun item => item == needle)

/-- Go func containsMedia(arr []*Media, needle string) bool. -/
def containsMedia (arr : List Media) (needle : String) : Bool :=
  arr.any (fun item => item.Path == needle)

/-- Go func diff(media []*Media, files []string) (toAdd, toDelete []string):
toAdd collects scanned filenames matched by no record, toDelete collects
record paths absent from the scan, both in input order. -/
def diff (media : List Media) (files : List String) : List String × List String :=
  (files.filter (fun file => !containsMedia media file),
   (media.filter (fun file => !contains files file.Path)).map (fun file => file.Path))

/-- Characterization of filepath.Ext: the suffix starting at the final dot
of the final path element.  Walks the name from the end, accumulating the
suffix seen so far; a path separator before any dot means no extension. -/
def extGo : List Char → List Char → String
  | [], _ => ""
  | c :: rest, acc =>
    if c = '/' then ""
    else if c = '.' then String.mk (c :: acc)
    else extGo rest (c :: acc)

/-- Go filepath.Ext(path). -/
def filepathExt (p : String) : String := extGo p.data.reverse []

/-- Go strings.Trim(s, "."): remove leading and trailing dots. -/
def trimDots (s : String) : String :=
  String.mk (((s.data.dropWhile (fun c => c = '.')).reverse.dropWhile
    (fun c => c = '.')).reverse)

/-- Group key computed by groupByType for one record:
strings.Trim(filepath.Ext(file.Path), ".") with exact "jpeg" folded
into "jpg".  Note the Go code performs no case folding. -/
def extKey (path : String) : String :=
  let ext := trimDots (filepathExt path)
  if ext = "jpeg" then "jpg" else ext

/-- Lookup of a key in the association list representing the Go map. -/
def findGroup (l : List (String × List Media)) (k : String) : Option (List Media) :=
  match l with
  | [] => none
  | (k₀, g) :: rest => if k₀ = k then some g else findGroup rest k

/-- One step of groupByType: append file to the entry of its key
(result[ext] = append(result[ext], file)), creating the entry if absent. -/
def addToGroup (l : List (String × List Media)) (k : String) (m : Media) :
    List (String × List Media) :=
  match l with
  | [] => [(k, [m])]
  | (k₀, g) :: rest =>
    if k₀ = k then (k₀, g ++ [m]) :: rest else (k₀, g) :: addToGroup rest k m

/-- Go func groupByType(media []*Media) map[string][]*Media, with the map
rendered as an association list in first-appearance key order. -/
def groupByType (media : List Media) : List (String × List Media) :=
  media.foldl (fun acc m => addToGroup acc (extKey m.Path) m) []

/-- The records grouped under key k (empty when the key is absent). -/
def groupOf (media : List Media) (k : String) : List Media :=
  (findGroup (groupByType media) k).getD []

/-- Cleanliness flags computed by the batch-filter loop of
GenerateThumbnails: allHaveThumbs turns false at the first record with an
empty ThumbPath, allHaveSameThumb turns false at the first record whose
ThumbPath differs from files[0].ThumbPath; either break ends the loop. -/
def batchFlags (first : String) : List Media → Bool × Bool
  | [] => (true, true)
  | file :: rest =>
    if file.ThumbPath = "" then (false, true)
    else if file.ThumbPath ≠ first then (true, false)
    else batchFlags first rest

/-- Decision of GenerateThumbnails to skip a batch (set batches[batch] to
nil): only when force is false and both cleanliness flags hold. -/
def skipBatch (force : Bool) (files : List Media) : Bool :=
  if force then false
  else
    match files with
    | [] => true
    | f₀ :: rest =>
      (batchFlags f₀.ThumbPath (f₀ :: rest)).1 && (batchFlags f₀.ThumbPath (f₀ :: rest)).2

/-- One bit-level round of the reflected CRC-32 polynomial 0xEDB88320. -/
def crc32round (crc : Nat) : Nat :=
  if crc % 2 = 1 then (crc / 2) ^^^ 0xEDB88320 else crc / 2

/-- Per-byte update of the IEEE CRC-32 running value (hash/crc32 with the
IEEE polynomial processes each byte through eight reflected rounds). -/
def crc32update (crc b : Nat) : Nat := crc32round^[8] (crc ^^^ b)

/-- IEEE CRC-32 of a byte string, as computed by crc32.NewIEEE + Sum32. -/
def crc32 (content : Bytes) : Nat :=
  (content.foldl crc32update 0xFFFFFFFF) ^^^ 0xFFFFFFFF

/-- Go func crc32sum: the CRC-32 rendered by fmt.Sprintf("%x", ...),
lowercase hexadecimal with no leading zeros. -/
def crc32sum (content : Bytes) : String :=
  (Nat.toDigits 16 (crc32 content)).asString

/-- Sheet filename for a batch: fmt.Sprintf("thumbnails_%d.%s", batch, format). -/
def thumbPathName (batch : Nat) (format : String) : String :=
  "thumbnails_" ++ toString batch ++ "." ++ format

/-- ThumbPath stamped onto every record of a regenerated batch:
thumbPath + "?crc=" + crc32sum(b). -/
def stampPath (batch : Nat) (format : String) (b : Bytes) : String :=
  thumbPathName batch format ++ "?crc=" ++ crc32sum b

section GroupLemmas

theorem findGroup_addToGroup (l : List (String × List Media)) (kI k : String) (m : Media) :
    findGroup (addToGroup l kI m) k =
      if kI = k then some ((findGroup l kI).getD [] ++ [m]) else findGroup l k := by
  induction l with
  | nil =>
    by_cases h : kI = k <;> simp [addToGroup, findGroup, h]
  | cons p rest ih =>
    obtain ⟨k₁, g⟩ := p
    by_cases h₁ : k₁ = kI
    · subst h₁
      by_cases h₂ : k₁ = k <;> simp [addToGroup, findGroup, h₂]
    · by_cases h₂ : k₁ = k
      · subst h₂
        have hk : ¬ kI = k₁ := fun h => h₁ h.symm
        simp [addToGroup, findGroup, h₁, hk]
      · simp [addToGroup, findGroup, h₁, h₂, ih]

/-- The group of key k is the order-preserving sublist of records whose
computed key is k. -/
theorem groupOf_eq_filter (media : List Media) :
    ∀ k, groupOf media k = media.filter (fun m => extKey m.Path == k) := by
  induction media using List.reverseRecOn with
  | nil => intro k; simp [groupOf, groupByType, findGroup]
  | append_singleton ms m ih =>
    intro k
    have hfold : groupByType (ms ++ [m]) = addToGroup (groupByType ms) (extKey m.Path) m := by
      simp [groupByType, List.foldl_append]
    have hgetd : ∀ k₂, (findGroup (groupByType ms) k₂).getD [] = groupOf ms k₂ := fun _ => rfl
    by_cases hk : extKey m.Path = k
    · have hbeq : (extKey m.Path == k) = true := by simp [hk]
      rw [groupOf, hfold, findGroup_addToGroup, if_pos hk, Option.getD_some, hgetd,
        ih (extKey m.Path), List.filter_append]
      simp [hbeq, hk]
    · have hbeq : (extKey m.Path == k) = false := by simp [hk]
      rw [groupOf, hfold, findGroup_addToGroup, if_neg hk, hgetd, ih k, List.filter_append]
      simp [hbeq]

end GroupLemmas

section ClaimC3

/-- C3 (confirmed).  Diff correctness: toAdd contains exactly the scanned
filenames equal to no record Path, and toDelete contains exactly the
record Paths appearing in no scanned filename, as sets. -/
theorem C3_diff_correct (media : List Media) (files : List String) :
    (∀ f, f ∈ (diff media files).1 ↔ f ∈ files ∧ ∀ m ∈ media, m.Path ≠ f) ∧
    (∀ p, p ∈ (diff media files).2 ↔ (∃ m ∈ media, m.Path = p) ∧ p ∉ files) := by
  constructor
  · intro f
    simp only [diff, List.mem_filter, Bool.not_eq_true', containsMedia, List.any_eq_false,
      beq_iff_eq, ne_eq]
  · intro p
    simp only [diff, List.mem_map, List.mem_filter, Bool.not_eq_true', contains,
      List.any_eq_false, beq_iff_eq]
    constructor
    · rintro ⟨m, ⟨hm, hc⟩, rfl⟩
      exact ⟨⟨m, hm, rfl⟩, fun hmem => hc m.Path hmem rfl⟩
    · rintro ⟨⟨m, hm, rfl⟩, hnot⟩
      exact ⟨m, ⟨hm, fun q hq hEq => hnot (hEq ▸ hq)⟩, rfl⟩

end ClaimC3

section ClaimC5

/-- C5 counterexample.  The claim says group keys are lower-cased, so a
record named a.JPG would land in group "jpg"; the code performs no case
folding: the record lands in group "JPG" and group "jpg" is empty. -/
theorem C5_counterexample :
    groupOf [{ Path := "a.JPG" }] "jpg" = [] ∧
    groupOf [{ Path := "a.JPG" }] "JPG" = [{ Path := "a.JPG" }] := by
  constructor <;> rfl

/-- C5 (amended).  groupByType partitions the records into groups keyed by
the file extension with the leading dot stripped exactly as written (no
case folding), with the exact string "jpeg" folded into "jpg"; within each
group records keep the input order (the group is the filter of the input
list on its key). -/
theorem C5_grouping_amended (media : List Media) (k : String) :
    groupOf media k = media.filter (fun m => extKey m.Path == k) :=
  groupOf_eq_filter media k

end ClaimC5

section ClaimC2

theorem batchFlags_eq_true_iff (l : List Media) (first : String) :
    batchFlags first l = (true, true) ↔
      ∀ f ∈ l, f.ThumbPath ≠ "" ∧ f.ThumbPath = first := by
  induction l with
  | nil => simp [batchFlags]
  | cons file rest ih =>
    simp only [batchFlags]
    by_cases h₁ : file.ThumbPath = ""
    · simp [h₁]
    · by_cases h₂ : file.ThumbPath = first
      · rw [if_neg h₁, if_neg (by simp [h₂])]
        simp [ih, h₁, h₂]
        exact fun _ => h₂ ▸ h₁
      · rw [if_neg h₁, if_pos h₂]
        constructor
        · intro h
          simp at h
        · intro h
          exact absurd ((h file (by simp)).2) h₂

/-- C2 (confirmed).  Cache policy: a batch is skipped iff force is false,
every record has a non-empty ThumbPath and all records agree on ThumbPath;
any empty or mismatched ThumbPath (or force) regenerates the whole batch. -/
theorem C2_cache_policy (force : Bool) (files : List Media) :
    skipBatch force files = true ↔
      force = false ∧ (∀ f ∈ files, f.ThumbPath ≠ "") ∧
        ∀ f ∈ files, ∀ g ∈ files, f.ThumbPath = g.ThumbPath := by
  cases force with
  | true => simp [skipBatch]
  | false =>
    cases files with
    | nil => simp [skipBatch]
    | cons f₀ rest =>
      have hiff := batchFlags_eq_true_iff (f₀ :: rest) f₀.ThumbPath
      constructor
      · intro hsk
        have hbt : batchFlags f₀.ThumbPath (f₀ :: rest) = (true, true) := by
          rcases hbf : batchFlags f₀.ThumbPath (f₀ :: rest) with ⟨a, b⟩
          simp only [skipBatch, Bool.false_eq_true, if_false, hbf, Bool.and_eq_true] at hsk
          simp [hsk.1, hsk.2]
        have hall := hiff.mp hbt
        exact ⟨rfl, fun f hf => (hall f hf).1,
          fun f hf g hg => by rw [(hall f hf).2, (hall g hg).2]⟩
      · rintro ⟨-, hne, hagree⟩
        have hbt : batchFlags f₀.ThumbPath (f₀ :: rest) = (true, true) :=
          hiff.mpr (fun f hf => ⟨hne f hf, hagree f hf f₀ (by simp)⟩)
        simp [skipBatch, hbt]

end ClaimC2

section Crc32Facts

/-- Standard CRC-32 check value: the IEEE CRC-32 of the ASCII string
"123456789" is cbf43926, confirming the embedding matches hash/crc32. -/
theorem crc32_check_value :
    crc32sum [49, 50, 51, 52, 53, 54, 55, 56, 57] = "cbf43926" := by decide

/-- ASCII bytes of "plumless". -/
def collideA : Bytes := [112, 108, 117, 109, 108, 101, 115, 115]

/-- ASCII bytes of "buckeroo". -/
def collideB : Bytes := [98, 117, 99, 107, 101, 114, 111, 111]

/-- C7 counterexample.  The claim asserts the checksum suffix changes if
and only if the sheet bytes change (different bytes give a different
path).  CRC-32 is not injective: the byte strings "plumless" and
"buckeroo" differ yet are stamped with the identical path. -/
theorem C7_counterexample :
    stampPath 0 "png" collideA = stampPath 0 "png" collideB ∧ collideA ≠ collideB := by
  constructor
  · decide
  · decide

end Crc32Facts

/-- Typed YAML scalar stored in a manifest document (yaml.v3 scalars are
typed; decoding a string into an int field is an error). -/
inductive YVal where
  | s : String → YVal
  | n : Nat → YVal
  deriving DecidableEq, Repr

/-- One key/value pair of a YAML mapping node. -/
abbrev YField := String × YVal

/-- One record of the manifest: the mapping node yaml.Marshal emits for
one Media value. -/
abbrev YRec := List YField

/-- A whole manifest document: the sequence node of record mappings. -/
abbrev Doc := List YRec

/-- An omitempty int field: emitted only when non-zero. -/
def optN (name : String) (v : Nat) : List YField :=
  if v = 0 then [] else [(name, YVal.n v)]

/-- An omitempty string field: emitted only when non-empty. -/
def optS (name : String) (v : String) : List YField :=
  if v = "" then [] else [(name, YVal.s v)]

/-- Marshalling of one Media record, following the yaml struct tags:
path is untagged (lowercased field name, always emitted), every other
field is omitempty; the unexported image field (yaml:"-") is skipped. -/
def encodeMedia (m : Media) : YRec :=
  ("path", YVal.s m.Path) ::
    (optN "width" m.Width ++ (optN "height" m.Height ++
    (optS "thumb" m.ThumbPath ++ (optN "thumb_x" m.ThumbXOffset ++
    (optN "thumb_y" m.ThumbYOffset ++ (optN "thumb_width" m.ThumbWidth ++
    (optN "thumb_height" m.ThumbHeight ++ (optN "thumb_total_width" m.ThumbTotalWidth ++
    (optN "thumb_total_height" m.ThumbTotalHeight ++ (optS "blurhash" m.Blurhash ++
    optS "blurhash_image_base64" m.BlurhashImageBase64))))))))))

/-- Unmarshalling action of one mapping key into a Media value being
decoded: known keys set their field (failing on a type mismatch, as
yaml.v3 does), unknown keys are ignored. -/
def setField (m : Media) (f : YField) : Option Media :=
  match f with
  | ("path", YVal.s v) => some { m with Path := v }
  | ("path", YVal.n _) => none
  | ("width", YVal.n v) => some { m with Width := v }
  | ("width", YVal.s _) => none
  | ("height", YVal.n v) => some { m with Height := v }
  | ("height", YVal.s _) => none
  | ("thumb", YVal.s v) => some { m with ThumbPath := v }
  | ("thumb", YVal.n _) => none
  | ("thumb_x", YVal.n v) => some { m with ThumbXOffset := v }
  | ("thumb_x", YVal.s _) => none
  | ("thumb_y", YVal.n v) => some { m with ThumbYOffset := v }
  | ("thumb_y", YVal.s _) => none
  | ("thumb_width", YVal.n v) => some { m with ThumbWidth := v }
  | ("thumb_width", YVal.s _) => none
  | ("thumb_height", YVal.n v) => some { m with ThumbHeight := v }
  | ("thumb_height", YVal.s _) => none
  | ("thumb_total_width", YVal.n v) => some { m with ThumbTotalWidth := v }
  | ("thumb_total_width", YVal.s _) => none
  | ("thumb_total_height", YVal.n v) => some { m with ThumbTotalHeight := v }
  | ("thumb_total_height", YVal.s _) => none
  | ("blurhash", YVal.s v) => some { m with Blurhash := v }
  | ("blurhash", YVal.n _) => none
  | ("blurhash_image_base64", YVal.s v) => some { m with BlurhashImageBase64 := v }
  | ("blurhash_image_base64", YVal.n _) => none
  | _ => some m

/-- Unmarshalling of one record mapping: fold the keys over the zero
Media value (yaml leaves absent fields at their zero value). -/
def decodeMedia (r : YRec) : Option Media := r.foldlM setField {}

/-- Marshalling of the whole record sequence, preserving order. -/
def encodeDoc (ms : List Media) : Doc := ms.map encodeMedia

/-- Unmarshalling of the whole document; any failing record fails the
document. -/
def decodeDoc (d : Doc) : Option (List Media) := d.mapM decodeMedia

/-- Distinct failure modes of LoadThumbsFile: a missing file is the
recoverable ErrThumbYamlNotFound, a malformed file is fatal. -/
inductive LoadErr where
  | notFound
  | decodeErr
  deriving DecidableEq, Repr

/-- Go func LoadThumbsFile over the manifest-file state (none = the file
does not exist): distinct not-found error, else unmarshal. -/
def LoadThumbsFile (file : Option Doc) : Except LoadErr (List Media) :=
  match file with
  | none => Except.error LoadErr.notFound
  | some doc =>
    match decodeDoc doc with
    | none => Except.error LoadErr.decodeErr
    | some media => Except.ok media

/-- Go func SaveThumbsFile over the manifest-file state: no write when the
record list is empty, otherwise the marshalled document replaces the file. -/
def SaveThumbsFile (file : Option Doc) (media : List Media) : Option Doc :=
  if media.length = 0 then file else some (encodeDoc media)

section RoundTrip

theorem chain_append {s s' r : Media} (l1 l2 : List YField)
    (h1 : List.foldlM setField s l1 = some s')
    (h2 : List.foldlM setField s' l2 = some r) :
    List.foldlM setField s (l1 ++ l2) = some r := by
  rw [List.foldlM_append, h1]
  simpa using h2

theorem foldlM_optN_block (s s' : Media) (name : String) (v : Nat)
    (hstep : v ≠ 0 → setField s (name, YVal.n v) = some s')
    (hzero : v = 0 → s = s') :
    List.foldlM setField s (optN name v) = some s' := by
  by_cases hv : v = 0
  · simp [optN, hv, hzero hv]
  · simp [optN, hv, hstep hv]

theorem foldlM_optS_block (s s' : Media) (name : String) (v : String)
    (hstep : v ≠ "" → setField s (name, YVal.s v) = some s')
    (hzero : v = "" → s = s') :
    List.foldlM setField s (optS name v) = some s' := by
  by_cases hv : v = ""
  · simp [optS, hv, hzero hv]
  · simp [optS, hv, hstep hv]

/-- Marshalling one record and unmarshalling it restores the record
exactly (omitted zero-valued fields come back as their zero values). -/
theorem decodeMedia_encodeMedia (m : Media) : decodeMedia (encodeMedia m) = some m := by
  rw [decodeMedia, encodeMedia, List.foldlM_cons]
  have h0 : setField {} ("path", YVal.s m.Path) = some { Path := m.Path } := rfl
  rw [h0]
  show List.foldlM setField { Path := m.Path } _ = some m
  refine chain_append _ _
    (foldlM_optN_block _ { Path := m.Path, Width := m.Width } _ _
      (fun _ => rfl) (fun h => by rw [h])) ?_
  refine chain_append _ _
    (foldlM_optN_block _ { Path := m.Path, Width := m.Width, Height := m.Height } _ _
      (fun _ => rfl) (fun h => by rw [h])) ?_
  refine chain_append _ _
    (foldlM_optS_block _
      { Path := m.Path, Width := m.Width, Height := m.Height, ThumbPath := m.ThumbPath } _ _
      (fun _ => rfl) (fun h => by rw [h])) ?_
  refine chain_append _ _
    (foldlM_optN_block _
      { Path := m.Path, Width := m.Width, Height := m.Height, ThumbPath := m.ThumbPath,
        ThumbXOffset := m.ThumbXOffset } _ _
      (fun _ => rfl) (fun h => by rw [h])) ?_
  refine chain_append _ _
    (foldlM_optN_block _
      { Path := m.Path, Width := m.Width, Height := m.Height, ThumbPath := m.ThumbPath,
        ThumbXOffset := m.ThumbXOffset, ThumbYOffset := m.ThumbYOffset } _ _
      (fun _ => rfl) (fun h => by rw [h])) ?_
  refine chain_append _ _
    (foldlM_optN_block _
      { Path := m.Path, Width := m.Width, Height := m.Height, ThumbPath := m.ThumbPath,
        ThumbXOffset := m.ThumbXOffset, ThumbYOffset := m.ThumbYOffset,
        ThumbWidth := m.ThumbWidth } _ _
      (fun _ => rfl) (fun h => by rw [h])) ?_
  refine chain_append _ _
    (foldlM_optN_block _
      { Path := m.Path, Width := m.Width, Height := m.Height, ThumbPath := m.ThumbPath,
        ThumbXOffset := m.ThumbXOffset, ThumbYOffset := m.ThumbYOffset,
        ThumbWidth := m.ThumbWidth, ThumbHeight := m.ThumbHeight } _ _
      (fun _ => rfl) (fun h => by rw [h])) ?_
  refine chain_append _ _
    (foldlM_optN_block _
      { Path := m.Path, Width := m.Width, Height := m.Height, ThumbPath := m.ThumbPath,
        ThumbXOffset := m.ThumbXOffset, ThumbYOffset := m.ThumbYOffset,
        ThumbWidth := m.ThumbWidth, ThumbHeight := m.ThumbHeight,
        ThumbTotalWidth := m.ThumbTotalWidth } _ _
      (fun _ => rfl) (fun h => by rw [h])) ?_
  refine chain_append _ _
    (foldlM_optN_block _
      { Path := m.Path, Width := m.Width, Height := m.Height, ThumbPath := m.ThumbPath,
        ThumbXOffset := m.ThumbXOffset, ThumbYOffset := m.ThumbYOffset,
        ThumbWidth := m.ThumbWidth, ThumbHeight := m.ThumbHeight,
        ThumbTotalWidth := m.ThumbTotalWidth, ThumbTotalHeight := m.ThumbTotalHeight } _ _
      (fun _ => rfl) (fun h => by rw [h])) ?_
  refine chain_append _ _
    (foldlM_optS_block _
      { Path := m.Path, Width := m.Width, Height := m.Height, ThumbPath := m.ThumbPath,
        ThumbXOffset := m.ThumbXOffset, ThumbYOffset := m.ThumbYOffset,
        ThumbWidth := m.ThumbWidth, ThumbHeight := m.ThumbHeight,
        ThumbTotalWidth := m.ThumbTotalWidth, ThumbTotalHeight := m.ThumbTotalHeight,
        Blurhash := m.Blurhash } _ _
      (fun _ => rfl) (fun h => by rw [h])) ?_
  exact foldlM_optS_block _
    { Path := m.Path, Width := m.Width, Height := m.Height, ThumbPath := m.ThumbPath,
      ThumbXOffset := m.ThumbXOffset, ThumbYOffset := m.ThumbYOffset,
      ThumbWidth := m.ThumbWidth, ThumbHeight := m.ThumbHeight,
      ThumbTotalWidth := m.ThumbTotalWidth, ThumbTotalHeight := m.ThumbTotalHeight,
      Blurhash := m.Blurhash, BlurhashImageBase64 := m.BlurhashImageBase64 } _ _
    (fun _ => rfl) (fun h => by rw [h])

/-- Marshalling a record sequence and unmarshalling it restores the
sequence, same records in the same order. -/
theorem decodeDoc_encodeDoc (ms : List Media) : decodeDoc (encodeDoc ms) = some ms := by
  induction ms with
  | nil => rfl
  | cons m rest ih =>
    simp only [decodeDoc, encodeDoc, List.map_cons, List.mapM_cons,
      decodeMedia_encodeMedia] at ih ⊢
    rw [ih]
    rfl

end RoundTrip

section ClaimC8

/-- C8 (confirmed).  Round trip: saving a non-empty record sequence and
loading it back succeeds and returns the same records in the same order
(regardless of the prior file contents). -/
theorem C8_round_trip (file : Option Doc) (media : List Media)
    (hne : media ≠ []) (_hnodup : (media.map Media.Path).Nodup) :
    LoadThumbsFile (SaveThumbsFile file media) = Except.ok media := by
  have hlen : ¬ media.length = 0 := by
    simpa [List.length_eq_zero] using hne
  rw [SaveThumbsFile, if_neg hlen]
  simp [LoadThumbsFile, decodeDoc_encodeDoc]

/-- Witness for C8 at a concrete two-record manifest. -/
theorem C8_round_trip_witness :
    (([{ Path := "a.png" }, { Path := "b.jpg", Width := 3 }] : List Media) ≠ [] ∧
      ((([{ Path := "a.png" }, { Path := "b.jpg", Width := 3 }] : List Media).map
        Media.Path).Nodup)) ∧
    LoadThumbsFile (SaveThumbsFile none [{ Path := "a.png" }, { Path := "b.jpg", Width := 3 }]) =
      Except.ok [{ Path := "a.png" }, { Path := "b.jpg", Width := 3 }] :=
  ⟨⟨by decide, by decide⟩,
    C8_round_trip none [{ Path := "a.png" }, { Path := "b.jpg", Width := 3 }]
      (by decide) (by decide)⟩

end ClaimC8

instance : Inhabited Img := ⟨⟨0, 0, 0⟩⟩

/-- MediaContainer mirrors the Go wrapper used for sorting: a pointer to
the record (pointer identity is modelled by the slot index idx in the
original batch) together with the transient resized image stored on it. -/
structure MediaContainer where
  idx : Nat
  media : Media
  image : Img
  deriving DecidableEq, Repr

instance : Inhabited MediaContainer := ⟨⟨0, {}, default⟩⟩

/-- Width read by the layout loops: container.Media.ThumbWidth. -/
def cW (c : MediaContainer) : Nat := c.media.ThumbWidth

/-- Height read by the layout loops: container.Media.ThumbHeight. -/
def cH (c : MediaContainer) : Nat := c.media.ThumbHeight

/-- Insertion of a container into a list sorted by ThumbHeight descending.
sort.Sort with ByThumbHeightDesc is an unstable sort; only sortedness and
the permutation property are observable downstream, so the embedding fixes
insertion sort as one deterministic realization. -/
def insertDesc (c : MediaContainer) : List MediaContainer → List MediaContainer
  | [] => [c]
  | d :: rest => if cH c ≤ cH d then d :: insertDesc c rest else c :: d :: rest

/-- Sort of the container list by ThumbHeight descending (sort.Sort with
the ByThumbHeightDesc Less function). -/
def sortDesc : List MediaContainer → List MediaContainer
  | [] => []
  | c :: rest => insertDesc c (sortDesc rest)

/-- Canvas-size loop of GenerateThumbnail after the first-iteration
initialization: state rowWidth, totalWidth, totalHeight, counter; at a row
boundary (counter = maxPerRow) the entering container's height is added to
totalHeight and the finished row's width is promoted into totalWidth; the
trailing promotion of the last row happens when the list is exhausted. -/
def sizeGo : Nat → Nat → Nat → Nat → List MediaContainer → Nat × Nat
  | rw, tw, th, _, [] => (if rw > tw then rw else tw, th)
  | rw, tw, th, counter, c :: rest =>
    if counter = maxPerRow then
      sizeGo (cW c) (if rw > tw then rw else tw) (th + cH c) 1 rest
    else
      sizeGo (rw + cW c) tw th (counter + 1) rest

/-- Canvas-size pass of GenerateThumbnail: at i = 0 totalWidth and
totalHeight are seeded from the first container, then the loop body runs
over the whole list starting with rowWidth = 0 and counter = 0. -/
def canvasSize : List MediaContainer → Nat × Nat
  | [] => (0, 0)
  | c :: rest => sizeGo 0 (cW c) (cH c) 0 (c :: rest)

/-- Writing of one tile's geometry into its record, as the drawing loop
does through the container pointer. -/
def setPos (c : MediaContainer) (x y tw th : Nat) : MediaContainer :=
  { idx := c.idx
    image := c.image
    media := { c.media with
      ThumbXOffset := x
      ThumbYOffset := y
      ThumbTotalWidth := tw
      ThumbTotalHeight := th } }

/-- Placement loop of GenerateThumbnail after the first-iteration
initialization: state x, y, col, rowHeight; at a row boundary x and col
reset, y advances by the rowHeight of the row being left, and rowHeight
becomes the entering container's height. -/
def placeGo (tw th : Nat) : Nat → Nat → Nat → Nat → List MediaContainer → List MediaContainer
  | _, _, _, _, [] => []
  | x, y, col, rh, c :: rest =>
    if col = maxPerRow then
      setPos c 0 (y + rh) tw th :: placeGo tw th (cW c) (y + rh) 1 (cH c) rest
    else
      setPos c x y tw th :: placeGo tw th (x + cW c) y (col + 1) rh rest

/-- Placement pass of GenerateThumbnail: rowHeight is seeded from the
first container at i = 0, then the loop body runs over the whole list. -/
def placePass (tw th : Nat) : List MediaContainer → List MediaContainer
  | [] => []
  | c :: rest => placeGo tw th 0 0 0 (cH c) (c :: rest)

/-- Fuel-driven worker for chunksPos; the fuel bounds the number of
chunks and is structurally decreasing, keeping the definition
kernel-computable. -/
def chunksGo (n : Nat) : Nat → List α → List (List α)
  | 0, _ => []
  | _ + 1, [] => []
  | fuel + 1, a :: rest =>
    (a :: rest).take (n + 1) :: chunksGo n fuel ((a :: rest).drop (n + 1))

/-- Chunks of size n+1 of a list, in order (the batching / row pattern
media[i : i+size] for i = 0, size, 2*size, ...). -/
def chunksPos (n : Nat) (l : List α) : List (List α) := chunksGo n l.length l

theorem chunksGo_fuel (n : Nat) :
    ∀ (f : Nat) (l : List α), l.length ≤ f → chunksGo n f l = chunksGo n l.length l := by
  intro f
  induction f using Nat.strong_induction_on with
  | _ f ih =>
    intro l hlen
    cases f with
    | zero =>
      have : l = [] := List.length_eq_zero.mp (by omega)
      subst this
      rfl
    | succ f₂ =>
      cases l with
      | nil => rfl
      | cons a rest =>
        have hr : rest.length ≤ f₂ := by simpa using hlen
        rw [show chunksGo n (f₂ + 1) (a :: rest) =
            (a :: rest).take (n + 1) :: chunksGo n f₂ ((a :: rest).drop (n + 1)) from rfl]
        rw [show chunksGo n (a :: rest).length (a :: rest) =
            (a :: rest).take (n + 1) :: chunksGo n rest.length ((a :: rest).drop (n + 1))
          from rfl]
        have hdlen : ((a :: rest).drop (n + 1)).length ≤ rest.length := by
          simp only [List.length_drop, List.length_cons]
          omega
        rw [ih f₂ (by omega) _ (le_trans hdlen hr), ih rest.length (by omega) _ hdlen]

/-- Rows of maxPerRow containers, as both layout passes walk them. -/
def layoutRows (l : List MediaContainer) : List (List MediaContainer) :=
  chunksPos (maxPerRow - 1) l

/-- Total ThumbWidth of one row. -/
def wsum (row : List MediaContainer) : Nat := (row.map cW).sum

/-- ThumbHeight of the first container of a row. -/
def headH (row : List MediaContainer) : Nat := cH (row.headD default)

/-- Maximum row width over a list of rows. -/
def maxWidths (rs : List (List MediaContainer)) : Nat :=
  rs.foldr (fun r acc => max (wsum r) acc) 0

/-- Sum of the first-container heights over a list of rows. -/
def headsSum (rs : List (List MediaContainer)) : Nat := (rs.map headH).sum

/-- Row-by-row placement at increasing x, fixed y: the closed form of one
row of the placement loop. -/
def placeRowAt (tw th : Nat) : Nat → Nat → List MediaContainer → List MediaContainer
  | _, _, [] => []
  | x, y, c :: rest => setPos c x y tw th :: placeRowAt tw th (x + cW c) y rest

/-- Rows placed in sequence, y advancing by each row's first-container
height: the closed form of the placement pass. -/
def placeRows (tw th : Nat) : Nat → List (List MediaContainer) → List MediaContainer
  | _, [] => []
  | y, row :: rest => placeRowAt tw th 0 y row ++ placeRows tw th (y + headH row) rest

section LayoutClosedForms

theorem ifMax (a b : Nat) : (if a > b then a else b) = max b a := by
  split <;> omega

theorem chunksPos_nil (n : Nat) : chunksPos n ([] : List α) = [] := rfl

theorem chunksPos_cons (n : Nat) (a : α) (rest : List α) :
    chunksPos n (a :: rest) =
      (a :: rest).take (n + 1) :: chunksPos n ((a :: rest).drop (n + 1)) := by
  rw [show chunksPos n (a :: rest) =
      (a :: rest).take (n + 1) :: chunksGo n rest.length ((a :: rest).drop (n + 1)) from rfl]
  rw [chunksPos, chunksGo_fuel n rest.length]
  simp only [List.length_drop, List.length_cons]
  omega

theorem wsum_nil : wsum [] = 0 := rfl

theorem wsum_cons (c : MediaContainer) (l : List MediaContainer) :
    wsum (c :: l) = cW c + wsum l := by
  simp [wsum]

theorem maxWidths_nil : maxWidths [] = 0 := rfl

theorem maxWidths_cons (r : List MediaContainer) (rs : List (List MediaContainer)) :
    maxWidths (r :: rs) = max (wsum r) (maxWidths rs) := rfl

theorem headsSum_nil : headsSum [] = 0 := rfl

theorem headsSum_cons (r : List MediaContainer) (rs : List (List MediaContainer)) :
    headsSum (r :: rs) = headH r + headsSum rs := by
  simp [headsSum]

theorem headH_cons (c : MediaContainer) (l : List MediaContainer) :
    headH (c :: l) = cH c := rfl

theorem layoutRows_nil : layoutRows [] = [] := by
  rw [layoutRows, chunksPos_nil]

theorem layoutRows_cons (c : MediaContainer) (rest : List MediaContainer) :
    layoutRows (c :: rest) =
      (c :: rest.take (maxPerRow - 1)) :: layoutRows (rest.drop (maxPerRow - 1)) := by
  rw [layoutRows, chunksPos_cons]
  simp [maxPerRow, layoutRows]

/-- Closed form of the canvas-size loop: the pending row contributes its
accumulated width, later rows contribute chunk by chunk, and totalHeight
grows by the first-container height of every later row. -/
theorem sizeGo_eq (l : List MediaContainer) :
    ∀ rw tw th k, k ≤ maxPerRow →
      sizeGo rw tw th k l =
        (max tw (max (rw + wsum (l.take (maxPerRow - k)))
            (maxWidths (layoutRows (l.drop (maxPerRow - k))))),
         th + headsSum (layoutRows (l.drop (maxPerRow - k)))) := by
  induction l with
  | nil =>
    intro rw tw th k hk
    simp only [sizeGo, List.take_nil, List.drop_nil, layoutRows_nil, wsum_nil,
      maxWidths_nil, headsSum_nil, ifMax, Prod.mk.injEq]
    omega
  | cons c rest ih =>
    intro rw tw th k hk
    by_cases hkm : k = maxPerRow
    · subst hkm
      have hstep : sizeGo rw tw th maxPerRow (c :: rest) =
          sizeGo (cW c) (if rw > tw then rw else tw) (th + cH c) 1 rest := by
        simp [sizeGo]
      rw [hstep, ih (cW c) (if rw > tw then rw else tw) (th + cH c) 1 (by norm_num [maxPerRow]),
        Nat.sub_self, List.take_zero, List.drop_zero, layoutRows_cons]
      simp only [maxWidths_cons, headsSum_cons, headH_cons, wsum_cons, wsum_nil, ifMax,
        Prod.mk.injEq]
      omega
    · have hlt : k < maxPerRow := Nat.lt_of_le_of_ne hk hkm
      have hstep : sizeGo rw tw th k (c :: rest) =
          sizeGo (rw + cW c) tw th (k + 1) rest := by
        simp [sizeGo, hkm]
      rw [hstep, ih (rw + cW c) tw th (k + 1) (by omega)]
      have hsucc : maxPerRow - k = (maxPerRow - (k + 1)) + 1 := by omega
      rw [hsucc, List.take_succ_cons, List.drop_succ_cons, wsum_cons, Prod.mk.injEq]
      omega

/-- Closed form of the canvas-size pass: totalWidth is the maximum row
width and totalHeight is the sum over rows of each row's first-container
height (after the descending sort, each row's own tallest tile). -/
theorem canvasSize_eq (l : List MediaContainer) :
    canvasSize l = (maxWidths (layoutRows l), headsSum (layoutRows l)) := by
  cases l with
  | nil => rw [layoutRows_nil]; rfl
  | cons c rest =>
    rw [show canvasSize (c :: rest) = sizeGo 0 (cW c) (cH c) 0 (c :: rest) from rfl]
    rw [sizeGo_eq (c :: rest) 0 (cW c) (cH c) 0 (by omega), Nat.sub_zero]
    have htake : (c :: rest).take maxPerRow = c :: rest.take (maxPerRow - 1) := rfl
    have hdrop : (c :: rest).drop maxPerRow = rest.drop (maxPerRow - 1) := rfl
    rw [htake, hdrop, layoutRows_cons, wsum_cons]
    simp only [maxWidths_cons, headsSum_cons, headH_cons, wsum_cons, Prod.mk.injEq]
    exact ⟨by omega, trivial⟩

/-- Closed form of the placement loop: the pending row is finished from
the current x, then whole rows follow, y advancing first by the pending
rowHeight and afterwards by each row's first-container height. -/
theorem placeGo_eq (l : List MediaContainer) :
    ∀ tw th x y col rh, col ≤ maxPerRow →
      placeGo tw th x y col rh l =
        placeRowAt tw th x y (l.take (maxPerRow - col)) ++
          placeRows tw th (y + rh) (layoutRows (l.drop (maxPerRow - col))) := by
  induction l with
  | nil =>
    intro tw th x y col rh _
    simp [placeGo, placeRowAt, layoutRows_nil, placeRows]
  | cons c rest ih =>
    intro tw th x y col rh hcol
    by_cases hkm : col = maxPerRow
    · subst hkm
      have hstep : placeGo tw th x y maxPerRow rh (c :: rest) =
          setPos c 0 (y + rh) tw th :: placeGo tw th (cW c) (y + rh) 1 (cH c) rest := by
        simp [placeGo]
      rw [hstep, ih tw th (cW c) (y + rh) 1 (cH c) (by norm_num [maxPerRow]),
        Nat.sub_self, List.take_zero, List.drop_zero, layoutRows_cons]
      rw [show placeRows tw th (y + rh)
            ((c :: rest.take (maxPerRow - 1)) :: layoutRows (rest.drop (maxPerRow - 1))) =
          placeRowAt tw th 0 (y + rh) (c :: rest.take (maxPerRow - 1)) ++
            placeRows tw th ((y + rh) + headH (c :: rest.take (maxPerRow - 1)))
              (layoutRows (rest.drop (maxPerRow - 1))) from rfl]
      rw [headH_cons]
      simp [placeRowAt]
    · have hlt : col < maxPerRow := Nat.lt_of_le_of_ne hcol hkm
      have hstep : placeGo tw th x y col rh (c :: rest) =
          setPos c x y tw th :: placeGo tw th (x + cW c) y (col + 1) rh rest := by
        simp [placeGo, hkm]
      rw [hstep, ih tw th (x + cW c) y (col + 1) rh (by omega)]
      have hsucc : maxPerRow - col = (maxPerRow - (col + 1)) + 1 := by omega
      rw [hsucc, List.take_succ_cons, List.drop_succ_cons]
      simp [placeRowAt]

/-- Closed form of the placement pass: rows are placed in order, each at
the y that is the sum of the first-container heights of the rows above. -/
theorem placePass_eq (tw th : Nat) (l : List MediaContainer) :
    placePass tw th l = placeRows tw th 0 (layoutRows l) := by
  cases l with
  | nil => rw [layoutRows_nil]; rfl
  | cons c rest =>
    rw [show placePass tw th (c :: rest) = placeGo tw th 0 0 0 (cH c) (c :: rest) from rfl]
    rw [placeGo_eq (c :: rest) tw th 0 0 0 (cH c) (by omega), Nat.sub_zero]
    have htake : (c :: rest).take maxPerRow = c :: rest.take (maxPerRow - 1) := rfl
    have hdrop : (c :: rest).drop maxPerRow = rest.drop (maxPerRow - 1) := rfl
    rw [htake, hdrop, layoutRows_cons]
    rw [show placeRows tw th 0
          ((c :: rest.take (maxPerRow - 1)) :: layoutRows (rest.drop (maxPerRow - 1))) =
        placeRowAt tw th 0 0 (c :: rest.take (maxPerRow - 1)) ++
          placeRows tw th (0 + headH (c :: rest.take (maxPerRow - 1)))
            (layoutRows (rest.drop (maxPerRow - 1))) from rfl]
    rw [headH_cons]

end LayoutClosedForms

section ClaimC4

/-- Batch of eleven containers whose second row is shorter than the first:
ten tiles of height 5 followed by one tile of height 3 (already in
descending height order, as the passes receive them after the sort). -/
def quirkBatch : List MediaContainer :=
  (List.range maxPerRow).map
    (fun i => ⟨i, { ThumbWidth := 2, ThumbHeight := 5 }, default⟩) ++
    [⟨maxPerRow, { ThumbWidth := 3, ThumbHeight := 3 }, default⟩]

/-- C4 counterexample.  On quirkBatch one row boundary is crossed, so the
claimed rule (every boundary adds containers[0].ThumbHeight = 5) predicts
totalHeight 5 + 5 = 10; the code adds the entering container's height
(containers[10].ThumbHeight = 3) and computes 8. -/
theorem C4_counterexample :
    (canvasSize quirkBatch).2 = 8 ∧
    cH (quirkBatch.headD default) + cH (quirkBatch.headD default) = 10 ∧
    (canvasSize quirkBatch).2 ≠ 10 := by
  refine ⟨by decide, by decide, by decide⟩

/-- C4 (amended).  The size pass adds, at each row boundary, the entering
(new) row's first-container height — after the descending sort, that row's
own tallest tile — so totalHeight is the sum over rows of each row's
first-container height; the placement pass advances y at each boundary by
the height of the row being left, so the y offsets are the prefix sums of
the same per-row contributions and the two passes agree on the total. -/
theorem C4_row_heights_amended (tw th : Nat) (containers : List MediaContainer) :
    (canvasSize containers).2 = headsSum (layoutRows containers) ∧
    placePass tw th containers = placeRows tw th 0 (layoutRows containers) := by
  refine ⟨?_, placePass_eq tw th containers⟩
  rw [canvasSize_eq]

end ClaimC4

/-- Containment of a record's placement rectangle in its own recorded
sheet bounds. -/
def insideCanvas (m : Media) : Prop :=
  m.ThumbXOffset + m.ThumbWidth ≤ m.ThumbTotalWidth ∧
  m.ThumbYOffset + m.ThumbHeight ≤ m.ThumbTotalHeight

/-- Membership of an integer point in a record's placement rectangle
[x, x+w) × [y, y+h). -/
def inRect (m : Media) (px py : Nat) : Prop :=
  m.ThumbXOffset ≤ px ∧ px < m.ThumbXOffset + m.ThumbWidth ∧
  m.ThumbYOffset ≤ py ∧ py < m.ThumbYOffset + m.ThumbHeight

/-- Two placement rectangles share no point. -/
def disjointRect (a b : Media) : Prop :=
  ∀ px py, inRect a px py → ¬ inRect b px py

section Geometry

theorem setPos_media (c : MediaContainer) (x y tw th : Nat) :
    (setPos c x y tw th).media.ThumbXOffset = x ∧
    (setPos c x y tw th).media.ThumbYOffset = y ∧
    (setPos c x y tw th).media.ThumbTotalWidth = tw ∧
    (setPos c x y tw th).media.ThumbTotalHeight = th ∧
    (setPos c x y tw th).media.ThumbWidth = cW c ∧
    (setPos c x y tw th).media.ThumbHeight = cH c :=
  ⟨rfl, rfl, rfl, rfl, rfl, rfl⟩

/-- Every tile placed by one row placement sits at the row's y, carries
the given sheet totals, spans x coordinates within the row's extent, and
keeps the width and height of a member of the row. -/
theorem placeRowAt_mem (tw th : Nat) :
    ∀ (row : List MediaContainer) (x y : Nat), ∀ out ∈ placeRowAt tw th x y row,
      x ≤ out.media.ThumbXOffset ∧
      out.media.ThumbXOffset + out.media.ThumbWidth ≤ x + wsum row ∧
      out.media.ThumbYOffset = y ∧
      out.media.ThumbTotalWidth = tw ∧
      out.media.ThumbTotalHeight = th ∧
      ∃ d ∈ row, out.media.ThumbWidth = cW d ∧ out.media.ThumbHeight = cH d := by
  intro row
  induction row with
  | nil => intro x y out hout; simp [placeRowAt] at hout
  | cons c rest ih =>
    intro x y out hout
    rw [show placeRowAt tw th x y (c :: rest) =
        setPos c x y tw th :: placeRowAt tw th (x + cW c) y rest from rfl] at hout
    rcases List.mem_cons.mp hout with h | h
    · subst h
      refine ⟨le_refl x, ?_, rfl, rfl, rfl, ⟨c, by simp, rfl, rfl⟩⟩
      rw [(setPos_media c x y tw th).1, (setPos_media c x y tw th).2.2.2.2.1, wsum_cons]
      omega
    · obtain ⟨hx, hxe, hy, htw, hth, d, hd, hwd, hhd⟩ := ih (x + cW c) y out h
      exact ⟨by omega, by rw [wsum_cons]; omega, hy, htw, hth, ⟨d, by simp [hd], hwd, hhd⟩⟩

/-- Tiles of one placed row occupy consecutive, non-overlapping x spans. -/
theorem placeRowAt_pairwise_x (tw th : Nat) :
    ∀ (row : List MediaContainer) (x y : Nat),
      (placeRowAt tw th x y row).Pairwise
        (fun a b => a.media.ThumbXOffset + a.media.ThumbWidth ≤ b.media.ThumbXOffset) := by
  intro row
  induction row with
  | nil => intro x y; simp [placeRowAt]
  | cons c rest ih =>
    intro x y
    rw [show placeRowAt tw th x y (c :: rest) =
        setPos c x y tw th :: placeRowAt tw th (x + cW c) y rest from rfl]
    refine List.Pairwise.cons ?_ (ih (x + cW c) y)
    intro b hb
    have hmem := (placeRowAt_mem tw th rest (x + cW c) y b hb).1
    rw [(setPos_media c x y tw th).1, (setPos_media c x y tw th).2.2.2.2.1]
    omega

/-- Every tile of the later rows lies at or below the starting y. -/
theorem placeRows_y_lb (tw th : Nat) :
    ∀ (rs : List (List MediaContainer)) (y : Nat), ∀ out ∈ placeRows tw th y rs,
      y ≤ out.media.ThumbYOffset := by
  intro rs
  induction rs with
  | nil => intro y out hout; simp [placeRows] at hout
  | cons row rest ih =>
    intro y out hout
    rw [show placeRows tw th y (row :: rest) =
        placeRowAt tw th 0 y row ++ placeRows tw th (y + headH row) rest from rfl] at hout
    rcases List.mem_append.mp hout with h | h
    · exact le_of_eq (placeRowAt_mem tw th row 0 y out h).2.2.1.symm
    · exact le_trans (by omega) (ih (y + headH row) out h)

/-- In a row listed in descending height order, every member's height is
at most the first member's height. -/
theorem row_height_le_headH (row : List MediaContainer)
    (hrow : row.Pairwise (fun a b => cH b ≤ cH a)) :
    ∀ d ∈ row, cH d ≤ headH row := by
  cases row with
  | nil => intro d hd; simp at hd
  | cons c rest =>
    intro d hd
    rw [headH_cons]
    rcases List.mem_cons.mp hd with h | h
    · subst h; exact le_refl _
    · exact (List.pairwise_cons.mp hrow).1 d h

/-- Containment: when the sheet is at least as wide as the widest row and
at least as tall as the rows stacked from y, every placed tile's rectangle
fits inside its recorded sheet bounds. -/
theorem placeRows_inside (tw th : Nat) :
    ∀ (rs : List (List MediaContainer)) (y : Nat),
      (∀ r ∈ rs, r.Pairwise (fun a b => cH b ≤ cH a)) →
      maxWidths rs ≤ tw → y + headsSum rs ≤ th →
      ∀ out ∈ placeRows tw th y rs, insideCanvas out.media := by
  intro rs
  induction rs with
  | nil => intro y _ _ _ out hout; simp [placeRows] at hout
  | cons row rest ih =>
    intro y hrows hw hh out hout
    rw [show placeRows tw th y (row :: rest) =
        placeRowAt tw th 0 y row ++ placeRows tw th (y + headH row) rest from rfl] at hout
    rw [maxWidths_cons] at hw
    rw [headsSum_cons] at hh
    rcases List.mem_append.mp hout with h | h
    · obtain ⟨hx, hxe, hy, htw, hth, d, hd, hwd, hhd⟩ := placeRowAt_mem tw th row 0 y out h
      have hdh : cH d ≤ headH row :=
        row_height_le_headH row (hrows row (by simp)) d hd
      constructor
      · rw [htw]; omega
      · rw [hth, hy, hhd]; omega
    · exact ih (y + headH row) (fun r hr => hrows r (by simp [hr])) (by omega) (by omega) out h

/-- Non-overlap: the placed tiles of the stacked rows have pairwise
disjoint rectangles. -/
theorem placeRows_pairwise_disjoint (tw th : Nat) :
    ∀ (rs : List (List MediaContainer)) (y : Nat),
      (∀ r ∈ rs, r.Pairwise (fun a b => cH b ≤ cH a)) →
      (placeRows tw th y rs).Pairwise (fun a b => disjointRect a.media b.media) := by
  intro rs
  induction rs with
  | nil => intro y _; simp [placeRows]
  | cons row rest ih =>
    intro y hrows
    rw [show placeRows tw th y (row :: rest) =
        placeRowAt tw th 0 y row ++ placeRows tw th (y + headH row) rest from rfl]
    rw [List.pairwise_append]
    refine ⟨?_, ih (y + headH row) (fun r hr => hrows r (by simp [hr])), ?_⟩
    · have hx := placeRowAt_pairwise_x tw th row 0 y
      refine hx.imp ?_
      intro a b hab px py hpa hpb
      obtain ⟨ha1, ha2, ha3, ha4⟩ := hpa
      obtain ⟨hb1, hb2, hb3, hb4⟩ := hpb
      omega
    · intro a ha b hb
      obtain ⟨-, -, hya, -, -, d, hd, -, hhd⟩ := placeRowAt_mem tw th row 0 y a ha
      have hdh : cH d ≤ headH row :=
        row_height_le_headH row (hrows row (by simp)) d hd
      have hyb := placeRows_y_lb tw th rest (y + headH row) b hb
      intro px py hpa hpb
      obtain ⟨ha1, ha2, ha3, ha4⟩ := hpa
      obtain ⟨hb1, hb2, hb3, hb4⟩ := hpb
      rw [hya] at ha3 ha4
      rw [hhd] at ha4
      omega

end Geometry

section SortLemmas

theorem insertDesc_perm (c : MediaContainer) (l : List MediaContainer) :
    (insertDesc c l).Perm (c :: l) := by
  induction l with
  | nil => exact List.Perm.refl _
  | cons d rest ih =>
    rw [insertDesc]
    split
    · exact (ih.cons d).trans (List.Perm.swap c d rest)
    · exact List.Perm.refl _

theorem sortDesc_perm (l : List MediaContainer) : (sortDesc l).Perm l := by
  induction l with
  | nil => exact List.Perm.refl _
  | cons c rest ih =>
    rw [sortDesc]
    exact (insertDesc_perm c (sortDesc rest)).trans (ih.cons c)

theorem insertDesc_pairwise (c : MediaContainer) (l : List MediaContainer)
    (hl : l.Pairwise (fun a b => cH b ≤ cH a)) :
    (insertDesc c l).Pairwise (fun a b => cH b ≤ cH a) := by
  induction l with
  | nil => simp [insertDesc]
  | cons d rest ih =>
    rw [insertDesc]
    obtain ⟨hd, hrest⟩ := List.pairwise_cons.mp hl
    split
    · rename_i hcd
      refine List.pairwise_cons.mpr ⟨?_, ih hrest⟩
      intro b hb
      rcases List.mem_cons.mp (((insertDesc_perm c rest).mem_iff).mp hb) with h | h
      · exact h ▸ hcd
      · exact hd b h
    · rename_i hcd
      refine List.pairwise_cons.mpr ⟨?_, hl⟩
      intro b hb
      rcases List.mem_cons.mp hb with h | h
      · subst h; omega
      · exact le_trans (hd b h) (by omega)

theorem sortDesc_pairwise (l : List MediaContainer) :
    (sortDesc l).Pairwise (fun a b => cH b ≤ cH a) := by
  induction l with
  | nil => simp [sortDesc]
  | cons c rest ih => exact insertDesc_pairwise c (sortDesc rest) ih

end SortLemmas

section ChunkLemmas

theorem chunksPos_ind (n : Nat) {motive : List α → Prop}
    (h0 : motive ([] : List α))
    (h1 : ∀ (a : α) (rest : List α),
      motive ((a :: rest).drop (n + 1)) → motive (a :: rest)) :
    ∀ l : List α, motive l := by
  intro l
  generalize hlen : l.length = len
  induction len using Nat.strong_induction_on generalizing l with
  | _ len ih =>
    cases l with
    | nil => exact h0
    | cons a rest =>
      refine h1 a rest (ih ((a :: rest).drop (n + 1)).length ?_ _ rfl)
      rw [← hlen]
      simp only [List.length_drop, List.length_cons]
      omega

theorem mem_chunksPos_sublist (n : Nat) (l : List α) :
    ∀ r ∈ chunksPos n l, r.Sublist l := by
  induction l using chunksPos_ind n with
  | h0 => intro r hr; rw [chunksPos_nil] at hr; simp at hr
  | h1 a rest ih =>
    intro r hr
    rw [chunksPos_cons] at hr
    rcases List.mem_cons.mp hr with h | h
    · subst h; exact List.take_sublist _ _
    · exact (ih r h).trans (List.drop_sublist _ _)

theorem chunksPos_flatten (n : Nat) (l : List α) :
    (chunksPos n l).flatten = l := by
  induction l using chunksPos_ind n with
  | h0 => rw [chunksPos_nil]; rfl
  | h1 a rest ih =>
    rw [chunksPos_cons, List.flatten_cons, ih, List.take_append_drop]

theorem mem_chunksPos_ne_nil (n : Nat) (l : List α) :
    ∀ r ∈ chunksPos n l, r ≠ [] := by
  induction l using chunksPos_ind n with
  | h0 => intro r hr; rw [chunksPos_nil] at hr; simp at hr
  | h1 a rest ih =>
    intro r hr
    rw [chunksPos_cons] at hr
    rcases List.mem_cons.mp hr with h | h
    · subst h; simp
    · exact ih r h

end ChunkLemmas

/-- Thumbnail dimensions produced by resize.Thumbnail(maxThumbSize,
maxThumbSize, img, Lanczos3): shrink to fit the bounding square
preserving aspect ratio with truncating integer arithmetic, width first,
then height (images already inside the square are untouched).  Models the
nfnt/resize collaborator at the interface the engine observes. -/
def resizeDims (w h : Nat) : Nat × Nat :=
  let p1 := if w > maxThumbSize then (maxThumbSize, h * maxThumbSize / w) else (w, h)
  if p1.2 > maxThumbSize then (p1.1 * maxThumbSize / p1.2, maxThumbSize) else p1

/-- Result of the decode-and-resize loop of GenerateThumbnail: the record
states after the loop, the container list carrying resized images, the
number of readImage calls, and whether every decode succeeded. -/
structure DecodeRes where
  state : List Media
  containers : List MediaContainer
  count : Nat
  ok : Bool
  deriving Repr

/-- Decode-and-resize loop of GenerateThumbnail: each record's source
image is decoded (env gives the decodable images; none means readImage
fails), Width/Height are set from the decoded bounds, the image is
resized and ThumbWidth/ThumbHeight set from the resized bounds.  A decode
failure aborts the loop: earlier records keep their new dimensions,
later records are untouched.  The index argument numbers the records so
container identity (the Go *Media pointer) is preserved. -/
def decodeResize (env : String → Option Img) : Nat → List Media → DecodeRes
  | _, [] => ⟨[], [], 0, true⟩
  | i, m :: rest =>
    match env m.Path with
    | none => ⟨m :: rest, [], 1, false⟩
    | some img =>
      let dims := resizeDims img.width img.height
      let m2 : Media := { m with
        Width := img.width
        Height := img.height
        ThumbWidth := dims.1
        ThumbHeight := dims.2 }
      let r := decodeResize env (i + 1) rest
      ⟨m2 :: r.state, ⟨i, m2, ⟨dims.1, dims.2, img.pix⟩⟩ :: r.containers, r.count + 1, r.ok⟩

/-- Raster content of one drawn tile: placement rectangle and the pixel
tag of the resized image drawn there with draw.Src. -/
def tileOf (c : MediaContainer) : List Nat :=
  [c.media.ThumbXOffset, c.media.ThumbYOffset, c.media.ThumbWidth,
   c.media.ThumbHeight, c.image.pix]

/-- Encoding of the composed canvas: png.Encode and jpeg.Encode (quality
95) are modelled as deterministic injections of the raster content with a
format marker; any other format value fails (unsupported format error). -/
def encodeSheet (format : String) (tw th : Nat) (placed : List MediaContainer) :
    Option Bytes :=
  if format = "png" then some (0 :: tw :: th :: (placed.map tileOf).flatten)
  else if format = "jpg" then some (1 :: tw :: th :: (placed.map tileOf).flatten)
  else none

/-- Lookup of the container holding the record of slot i (the Go *Media
pointer identity). -/
def lookupIdx (i : Nat) : List MediaContainer → Option MediaContainer
  | [] => none
  | c :: rest => if c.idx = i then some c else lookupIdx i rest

/-- Record states after generation, read back in original slot order:
slot i holds the (mutated) record of the container with index i. -/
def reassemble (n : Nat) (placed : List MediaContainer) : List Media :=
  (List.range n).map (fun i => ((lookupIdx i placed).getD default).media)

/-- Result of GenerateThumbnail: the record states after the call (Go
mutates the records through pointers even on the error paths), the number
of readImage calls, and the encoded sheet bytes (none = error). -/
structure GenRes where
  state : List Media
  count : Nat
  bytes : Option Bytes
  deriving Repr

/-- Go func GenerateThumbnail(media []*Media, dir, format string):
decode and resize every image, sort containers by thumb height
descending, compute the canvas size, place every tile (writing offsets
and sheet totals into the records), draw, and encode. -/
def GenerateThumbnail (env : String → Option Img) (media : List Media) (format : String) :
    GenRes :=
  let dr := decodeResize env 0 media
  if dr.ok then
    let containers := sortDesc dr.containers
    let size := canvasSize containers
    let placed := placePass size.1 size.2 containers
    { state := reassemble media.length placed,
      count := dr.count,
      bytes := encodeSheet format size.1 size.2 placed }
  else
    { state := dr.state, count := dr.count, bytes := none }

section DecodeLemmas

theorem decodeResize_cons_none (env : String → Option Img) (i : Nat) (m : Media)
    (rest : List Media) (henv : env m.Path = none) :
    decodeResize env i (m :: rest) = ⟨m :: rest, [], 1, false⟩ := by
  rw [decodeResize, henv]

theorem decodeResize_cons_some (env : String → Option Img) (i : Nat) (m : Media)
    (rest : List Media) (img : Img) (henv : env m.Path = some img) :
    decodeResize env i (m :: rest) =
      ⟨{ m with
          Width := img.width
          Height := img.height
          ThumbWidth := (resizeDims img.width img.height).1
          ThumbHeight := (resizeDims img.width img.height).2 } ::
          (decodeResize env (i + 1) rest).state,
        ⟨i,
         { m with
            Width := img.width
            Height := img.height
            ThumbWidth := (resizeDims img.width img.height).1
            ThumbHeight := (resizeDims img.width img.height).2 },
         ⟨(resizeDims img.width img.height).1, (resizeDims img.width img.height).2,
          img.pix⟩⟩ :: (decodeResize env (i + 1) rest).containers,
        (decodeResize env (i + 1) rest).count + 1,
        (decodeResize env (i + 1) rest).ok⟩ := by
  rw [decodeResize, henv]

/-- Record paths are never touched by the decode-and-resize loop, on the
success and on the failure path alike. -/
theorem decodeResize_paths (env : String → Option Img) :
    ∀ (media : List Media) (i : Nat),
      (decodeResize env i media).state.map (fun m => m.Path) =
        media.map (fun m => m.Path) := by
  intro media
  induction media with
  | nil => intro i; rfl
  | cons m rest ih =>
    intro i
    cases henv : env m.Path with
    | none => rw [decodeResize_cons_none env i m rest henv]
    | some img =>
      rw [decodeResize_cons_some env i m rest img henv]
      simpa using ih (i + 1)

theorem decodeResize_ok_state (env : String → Option Img) :
    ∀ (media : List Media) (i : Nat), (decodeResize env i media).ok = true →
      (decodeResize env i media).state =
        (decodeResize env i media).containers.map (fun c => c.media) := by
  intro media
  induction media with
  | nil => intro i _; rfl
  | cons m rest ih =>
    intro i hok
    cases henv : env m.Path with
    | none => rw [decodeResize_cons_none env i m rest henv] at hok; simp at hok
    | some img =>
      rw [decodeResize_cons_some env i m rest img henv] at hok ⊢
      simp only [List.map_cons, List.cons.injEq] at hok ⊢
      exact ⟨trivial, ih (i + 1) hok⟩

theorem decodeResize_ok_idx (env : String → Option Img) :
    ∀ (media : List Media) (i : Nat), (decodeResize env i media).ok = true →
      (decodeResize env i media).containers.map (fun c => c.idx) =
        List.range' i media.length := by
  intro media
  induction media with
  | nil => intro i _; rfl
  | cons m rest ih =>
    intro i hok
    cases henv : env m.Path with
    | none => rw [decodeResize_cons_none env i m rest henv] at hok; simp at hok
    | some img =>
      rw [decodeResize_cons_some env i m rest img henv] at hok ⊢
      simp only [List.map_cons, List.length_cons, List.range'_succ, List.cons.injEq] at hok ⊢
      exact ⟨trivial, ih (i + 1) hok⟩

/-- Relation between one input record and its container on the success
path of the decode-and-resize loop. -/
def decodedRel (env : String → Option Img) (m : Media) (c : MediaContainer) : Prop :=
  ∃ img, env m.Path = some img ∧
    c.media = { m with
      Width := img.width
      Height := img.height
      ThumbWidth := (resizeDims img.width img.height).1
      ThumbHeight := (resizeDims img.width img.height).2 } ∧
    c.image = ⟨(resizeDims img.width img.height).1, (resizeDims img.width img.height).2,
      img.pix⟩

theorem decodeResize_ok_forall₂ (env : String → Option Img) :
    ∀ (media : List Media) (i : Nat), (decodeResize env i media).ok = true →
      List.Forall₂ (decodedRel env) media (decodeResize env i media).containers := by
  intro media
  induction media with
  | nil => intro i _; exact List.Forall₂.nil
  | cons m rest ih =>
    intro i hok
    cases henv : env m.Path with
    | none => rw [decodeResize_cons_none env i m rest henv] at hok; simp at hok
    | some img =>
      rw [decodeResize_cons_some env i m rest img henv] at hok ⊢
      simp only at hok ⊢
      exact List.Forall₂.cons ⟨img, henv, rfl, rfl⟩ (ih (i + 1) hok)

end DecodeLemmas

section PlacementShape

/-- Relation between a container entering the placement loop and the same
container after its record got offsets and sheet totals written. -/
def placedRel (tw th : Nat) (c d : MediaContainer) : Prop :=
  ∃ px py, d = setPos c px py tw th

theorem placeGo_forall₂ (tw th : Nat) :
    ∀ (l : List MediaContainer) (x y col rh : Nat),
      List.Forall₂ (placedRel tw th) l (placeGo tw th x y col rh l) := by
  intro l
  induction l with
  | nil => intro x y col rh; exact List.Forall₂.nil
  | cons c rest ih =>
    intro x y col rh
    rw [placeGo]
    split
    · exact List.Forall₂.cons ⟨0, y + rh, rfl⟩ (ih (cW c) (y + rh) 1 (cH c))
    · exact List.Forall₂.cons ⟨x, y, rfl⟩ (ih (x + cW c) y (col + 1) rh)

theorem placePass_forall₂ (tw th : Nat) (l : List MediaContainer) :
    List.Forall₂ (placedRel tw th) l (placePass tw th l) := by
  cases l with
  | nil => exact List.Forall₂.nil
  | cons c rest => exact placeGo_forall₂ tw th (c :: rest) 0 0 0 (cH c)

theorem placedRel_idx {tw th : Nat} {c d : MediaContainer} (h : placedRel tw th c d) :
    d.idx = c.idx := by
  obtain ⟨px, py, rfl⟩ := h
  rfl

end PlacementShape

section LookupLemmas

theorem lookupIdx_eq_some_mem {i : Nat} :
    ∀ {l : List MediaContainer} {c : MediaContainer},
      lookupIdx i l = some c → c ∈ l ∧ c.idx = i := by
  intro l
  induction l with
  | nil => intro c h; simp [lookupIdx] at h
  | cons d rest ih =>
    intro c h
    rw [lookupIdx] at h
    split at h
    · rename_i hd
      obtain rfl := Option.some.injEq _ _ ▸ h
      exact ⟨by simp, by simpa using hd⟩
    · obtain ⟨hm, hi⟩ := ih h
      exact ⟨by simp [hm], hi⟩

theorem lookupIdx_eq_none_iff {i : Nat} :
    ∀ {l : List MediaContainer}, lookupIdx i l = none ↔ ∀ c ∈ l, c.idx ≠ i := by
  intro l
  induction l with
  | nil => simp [lookupIdx]
  | cons d rest ih =>
    rw [lookupIdx]
    split
    · rename_i hd
      simp only [iff_false_intro (Option.some_ne_none d), false_iff]
      push_neg
      exact ⟨d, by simp, hd⟩
    · rename_i hd
      rw [ih]
      constructor
      · intro h c hc
        rcases List.mem_cons.mp hc with rfl | hc₂
        · exact hd
        · exact h c hc₂
      · intro h c hc
        exact h c (by simp [hc])

theorem lookupIdx_of_mem_nodup :
    ∀ {l : List MediaContainer} {c : MediaContainer},
      (l.map (fun x => x.idx)).Nodup → c ∈ l → lookupIdx c.idx l = some c := by
  intro l
  induction l with
  | nil => intro c _ hc; simp at hc
  | cons d rest ih =>
    intro c hnd hc
    rw [lookupIdx]
    rcases List.mem_cons.mp hc with rfl | hc₂
    · simp
    · have hne : d.idx ≠ c.idx := by
        intro hEq
        have : c.idx ∈ rest.map (fun x => x.idx) := List.mem_map_of_mem _ hc₂
        rw [List.map_cons, List.nodup_cons] at hnd
        exact hnd.1 (hEq ▸ this)
      rw [if_neg hne]
      exact ih (by rw [List.map_cons, List.nodup_cons] at hnd; exact hnd.2) hc₂

theorem lookupIdx_perm {l l' : List MediaContainer} (hp : l.Perm l')
    (hnd : (l.map (fun x => x.idx)).Nodup) (i : Nat) :
    lookupIdx i l = lookupIdx i l' := by
  cases h : lookupIdx i l with
  | none =>
    rw [lookupIdx_eq_none_iff] at h
    symm
    rw [lookupIdx_eq_none_iff]
    exact fun c hc => h c (hp.mem_iff.mpr hc)
  | some c =>
    obtain ⟨hm, rfl⟩ := lookupIdx_eq_some_mem h
    symm
    exact lookupIdx_of_mem_nodup ((hp.map _).nodup_iff.mp hnd) (hp.mem_iff.mp hm)

theorem lookupIdx_forall₂ {R : MediaContainer → MediaContainer → Prop}
    (hidx : ∀ a b, R a b → b.idx = a.idx) :
    ∀ {l l' : List MediaContainer}, List.Forall₂ R l l' → ∀ (i : Nat) (c : MediaContainer),
      lookupIdx i l = some c → ∃ d, lookupIdx i l' = some d ∧ R c d := by
  intro l l' hf
  induction hf with
  | nil => intro i c h; simp [lookupIdx] at h
  | cons hab hrest ih =>
    rename_i a b l₁ l₂
    intro i c h
    rw [lookupIdx] at h ⊢
    rw [hidx a b hab]
    split at h
    · rename_i ha
      obtain rfl := Option.some.injEq _ _ ▸ h
      rw [if_pos ha]
      exact ⟨b, rfl, hab⟩
    · rename_i ha
      rw [if_neg ha]
      exact ih i c h

theorem forall₂_map_eq {R : MediaContainer → MediaContainer → Prop} {f : MediaContainer → Nat}
    (hf : ∀ a b, R a b → f b = f a) :
    ∀ {l l' : List MediaContainer}, List.Forall₂ R l l' → l'.map f = l.map f := by
  intro l l' h
  induction h with
  | nil => rfl
  | cons hab hrest ih =>
    rename_i a b l₁ l₂
    simp [ih, hf a b hab]

end LookupLemmas

section GenerateThumbnailSpec

theorem GenerateThumbnail_ok_unfold (env : String → Option Img) (media : List Media)
    (format : String) (hok : (decodeResize env 0 media).ok = true) :
    GenerateThumbnail env media format =
      { state := reassemble media.length
          (placePass (canvasSize (sortDesc (decodeResize env 0 media).containers)).1
            (canvasSize (sortDesc (decodeResize env 0 media).containers)).2
            (sortDesc (decodeResize env 0 media).containers)),
        count := (decodeResize env 0 media).count,
        bytes := encodeSheet format
          (canvasSize (sortDesc (decodeResize env 0 media).containers)).1
          (canvasSize (sortDesc (decodeResize env 0 media).containers)).2
          (placePass (canvasSize (sortDesc (decodeResize env 0 media).containers)).1
            (canvasSize (sortDesc (decodeResize env 0 media).containers)).2
            (sortDesc (decodeResize env 0 media).containers)) } := by
  rw [GenerateThumbnail]
  simp only [hok, if_true]

theorem GenerateThumbnail_err_unfold (env : String → Option Img) (media : List Media)
    (format : String) (hok : (decodeResize env 0 media).ok = false) :
    GenerateThumbnail env media format =
      { state := (decodeResize env 0 media).state,
        count := (decodeResize env 0 media).count,
        bytes := none } := by
  rw [GenerateThumbnail]
  simp only [hok, Bool.false_eq_true, if_false]

theorem containers_idx_nodup (env : String → Option Img) (media : List Media)
    (hok : (decodeResize env 0 media).ok = true) :
    ((decodeResize env 0 media).containers.map (fun x => x.idx)).Nodup := by
  rw [decodeResize_ok_idx env media 0 hok]
  exact List.nodup_range' 0 media.length

theorem map_eq_range'_idx :
    ∀ {l : List MediaContainer} {s n : Nat},
      l.map (fun x => x.idx) = List.range' s n →
      ∀ j (hj : j < l.length), (l.get ⟨j, hj⟩).idx = s + j := by
  intro l
  induction l with
  | nil => intro s n _ j hj; simp at hj
  | cons c rest ih =>
    intro s n h j hj
    cases n with
    | zero => simp [List.range'] at h
    | succ n₂ =>
      rw [List.range'_succ] at h
      simp only [List.map_cons, List.cons.injEq] at h
      obtain ⟨hc, hrest⟩ := h
      cases j with
      | zero => simpa using hc
      | succ j₂ =>
        have hstep := ih hrest j₂ (by simpa using hj)
        rw [List.get_cons_succ, hstep]
        omega

/-- After the sort and the placement pass, slot j of the batch is held by
exactly one container: the j-th input record with decoded dimensions,
some offsets, and the given sheet totals written into it. -/
theorem placed_lookup (env : String → Option Img) (media : List Media)
    (hok : (decodeResize env 0 media).ok = true) (tw th : Nat) :
    ∀ j (hj : j < media.length),
      ∃ img px py,
        env ((media.get ⟨j, hj⟩).Path) = some img ∧
        lookupIdx j (placePass tw th (sortDesc (decodeResize env 0 media).containers)) =
          some (setPos
            ⟨j,
             { media.get ⟨j, hj⟩ with
                Width := img.width
                Height := img.height
                ThumbWidth := (resizeDims img.width img.height).1
                ThumbHeight := (resizeDims img.width img.height).2 },
             ⟨(resizeDims img.width img.height).1, (resizeDims img.width img.height).2,
              img.pix⟩⟩ px py tw th) := by
  intro j hj
  have hf := decodeResize_ok_forall₂ env media 0 hok
  have hlen : media.length = (decodeResize env 0 media).containers.length := hf.length_eq
  have hnd := containers_idx_nodup env media hok
  have hjc : j < (decodeResize env 0 media).containers.length := hlen ▸ hj
  obtain ⟨-, hget⟩ := List.forall₂_iff_get.mp hf
  obtain ⟨img, himg, hmedia, himage⟩ := hget j hj hjc
  -- the j-th container has index j
  have hcidx : ((decodeResize env 0 media).containers.get ⟨j, hjc⟩).idx = j := by
    simpa using map_eq_range'_idx (decodeResize_ok_idx env media 0 hok) j hjc
  -- the j-th container is what lookupIdx finds in the container list
  have hlook : lookupIdx j (decodeResize env 0 media).containers =
      some ((decodeResize env 0 media).containers.get ⟨j, hjc⟩) := by
    have := lookupIdx_of_mem_nodup hnd
      (List.get_mem (decodeResize env 0 media).containers j hjc)
    rw [hcidx] at this
    exact this
  -- transported through the sort (a permutation with unique indices)
  have hsort : lookupIdx j (sortDesc (decodeResize env 0 media).containers) =
      some ((decodeResize env 0 media).containers.get ⟨j, hjc⟩) := by
    rw [lookupIdx_perm (sortDesc_perm (decodeResize env 0 media).containers)
      (((sortDesc_perm _).map _).nodup_iff.mpr hnd) j]
    exact hlook
  -- transported through the placement pass
  obtain ⟨d, hd, px, py, rfl⟩ :=
    lookupIdx_forall₂ (fun a b h => placedRel_idx h)
      (placePass_forall₂ tw th (sortDesc (decodeResize env 0 media).containers)) j
      ((decodeResize env 0 media).containers.get ⟨j, hjc⟩) hsort
  refine ⟨img, px, py, himg, ?_⟩
  rw [hd]
  congr 1
  have : (decodeResize env 0 media).containers.get ⟨j, hjc⟩ =
      ⟨j,
       { media.get ⟨j, hj⟩ with
          Width := img.width
          Height := img.height
          ThumbWidth := (resizeDims img.width img.height).1
          ThumbHeight := (resizeDims img.width img.height).2 },
       ⟨(resizeDims img.width img.height).1, (resizeDims img.width img.height).2,
        img.pix⟩⟩ := by
    rcases hc : (decodeResize env 0 media).containers.get ⟨j, hjc⟩ with ⟨ci, cm, cimg⟩
    rw [hc] at hcidx hmedia himage
    simp only at hcidx hmedia himage
    rw [hcidx, hmedia, himage]
  rw [this]

theorem reassemble_length (n : Nat) (placed : List MediaContainer) :
    (reassemble n placed).length = n := by
  simp [reassemble]

theorem reassemble_getElem? (n : Nat) (placed : List MediaContainer) (j : Nat)
    (hj : j < n) :
    (reassemble n placed)[j]? = some (((lookupIdx j placed).getD default).media) := by
  simp [reassemble, List.getElem?_map, List.getElem?_range, hj]

/-- On the success path every record ends up as its input value with the
decoded dimensions, the resized thumb dimensions, some offsets, and the
computed sheet totals written in. -/
theorem GenerateThumbnail_ok_state (env : String → Option Img) (media : List Media)
    (format : String) (hok : (decodeResize env 0 media).ok = true) :
    (GenerateThumbnail env media format).state.length = media.length ∧
    ∀ j (hj : j < media.length),
      ∃ img px py,
        env ((media.get ⟨j, hj⟩).Path) = some img ∧
        (GenerateThumbnail env media format).state[j]? =
          some { media.get ⟨j, hj⟩ with
             Width := img.width
             Height := img.height
             ThumbWidth := (resizeDims img.width img.height).1
             ThumbHeight := (resizeDims img.width img.height).2
             ThumbXOffset := px
             ThumbYOffset := py
             ThumbTotalWidth := (canvasSize (sortDesc (decodeResize env 0 media).containers)).1
             ThumbTotalHeight :=
               (canvasSize (sortDesc (decodeResize env 0 media).containers)).2 } := by
  rw [GenerateThumbnail_ok_unfold env media format hok]
  refine ⟨reassemble_length _ _, ?_⟩
  intro j hj
  obtain ⟨img, px, py, himg, hlook⟩ := placed_lookup env media hok
    (canvasSize (sortDesc (decodeResize env 0 media).containers)).1
    (canvasSize (sortDesc (decodeResize env 0 media).containers)).2 j hj
  refine ⟨img, px, py, himg, ?_⟩
  rw [reassemble_getElem? media.length _ j hj, hlook]
  rfl

/-- Record paths come out of GenerateThumbnail unchanged, in order, on
the success and on the failure path alike. -/
theorem GenerateThumbnail_paths (env : String → Option Img) (media : List Media)
    (format : String) :
    (GenerateThumbnail env media format).state.map (fun m => m.Path) =
      media.map (fun m => m.Path) := by
  cases hok : (decodeResize env 0 media).ok with
  | false =>
    rw [GenerateThumbnail_err_unfold env media format hok]
    exact decodeResize_paths env media 0
  | true =>
    obtain ⟨hlen, hspec⟩ := GenerateThumbnail_ok_state env media format hok
    apply List.ext_getElem?
    intro j
    by_cases hj : j < media.length
    · obtain ⟨img, px, py, himg, hget⟩ := hspec j hj
      rw [List.getElem?_map, List.getElem?_map, hget,
        List.getElem?_eq_getElem hj]
      rfl
    · rw [List.getElem?_map, List.getElem?_map]
      have hs : (GenerateThumbnail env media format).state[j]? = none :=
        List.getElem?_eq_none (by rw [hlen]; omega)
      have hm2 : media[j]? = none := List.getElem?_eq_none (by omega)
      rw [hs, hm2]

theorem disjointRect_symm {a b : Media} (h : disjointRect a b) : disjointRect b a :=
  fun px py hb ha => h px py ha hb

theorem reassemble_pairwise (n : Nat) (placed : List MediaContainer)
    (hcover : ∀ j, j < n → ∃ d, lookupIdx j placed = some d)
    (hpw : placed.Pairwise (fun a b => disjointRect a.media b.media)) :
    (reassemble n placed).Pairwise disjointRect := by
  rw [List.pairwise_iff_getElem]
  intro p q hp hq hpq
  have hp₂ : p < n := by rwa [reassemble_length] at hp
  have hq₂ : q < n := by rwa [reassemble_length] at hq
  obtain ⟨a, ha⟩ := hcover p hp₂
  obtain ⟨b, hb⟩ := hcover q hq₂
  obtain ⟨hamem, haidx⟩ := lookupIdx_eq_some_mem ha
  obtain ⟨hbmem, hbidx⟩ := lookupIdx_eq_some_mem hb
  have hpa : (reassemble n placed)[p] = a.media := by
    have := reassemble_getElem? n placed p hp₂
    rw [List.getElem?_eq_getElem hp] at this
    rw [ha] at this
    simpa using this
  have hpb : (reassemble n placed)[q] = b.media := by
    have := reassemble_getElem? n placed q hq₂
    rw [List.getElem?_eq_getElem hq] at this
    rw [hb] at this
    simpa using this
  rw [hpa, hpb]
  have hab : a ≠ b := by
    intro hEq
    rw [hEq, hbidx] at haidx
    omega
  obtain ⟨pa, hpalt, hpaeq⟩ := List.mem_iff_getElem.mp hamem
  obtain ⟨pb, hpblt, hpbeq⟩ := List.mem_iff_getElem.mp hbmem
  have hpos : pa ≠ pb := by
    intro hEq
    subst hEq
    exact hab (hpaeq.symm.trans hpbeq)
  have hpwg := List.pairwise_iff_getElem.mp hpw
  rcases Nat.lt_or_ge pa pb with hlt | hge
  · have := hpwg pa pb hpalt hpblt hlt
    rw [hpaeq, hpbeq] at this
    exact this
  · have hlt₂ : pb < pa := by omega
    have := hpwg pb pa hpblt hpalt hlt₂
    rw [hpaeq, hpbeq] at this
    exact disjointRect_symm this

end GenerateThumbnailSpec

section ClaimC10

theorem decodeResize_ok_of (env : String → Option Img) :
    ∀ (media : List Media) (i : Nat), (∀ m ∈ media, (env m.Path).isSome) →
      (decodeResize env i media).ok = true := by
  intro media
  induction media with
  | nil => intro i _; rfl
  | cons m rest ih =>
    intro i hdec
    cases henv : env m.Path with
    | none =>
      have := hdec m (by simp)
      rw [henv] at this
      simp at this
    | some img =>
      rw [decodeResize_cons_some env i m rest img henv]
      exact ih (i + 1) (fun x hx => hdec x (by simp [hx]))

/-- C10 (confirmed).  With every image decodable and a format outside
png/jpg, GenerateThumbnail fails and returns no sheet bytes, but the
records have already been mutated: every record's Width/Height carry the
decoded bounds and ThumbWidth/ThumbHeight the resized bounds, and they
are not restored on the error return. -/
theorem C10_mutation_before_format_failure (env : String → Option Img) (media : List Media)
    (format : String) (hdec : ∀ m ∈ media, (env m.Path).isSome)
    (hpng : format ≠ "png") (hjpg : format ≠ "jpg") :
    (GenerateThumbnail env media format).bytes = none ∧
    (GenerateThumbnail env media format).state.length = media.length ∧
    ∀ j (hj : j < media.length),
      ∃ img, env ((media.get ⟨j, hj⟩).Path) = some img ∧
        ∃ m, (GenerateThumbnail env media format).state[j]? = some m ∧
          m.Width = img.width ∧ m.Height = img.height ∧
          m.ThumbWidth = (resizeDims img.width img.height).1 ∧
          m.ThumbHeight = (resizeDims img.width img.height).2 := by
  have hok := decodeResize_ok_of env media 0 hdec
  obtain ⟨hlen, hspec⟩ := GenerateThumbnail_ok_state env media format hok
  refine ⟨?_, hlen, ?_⟩
  · rw [GenerateThumbnail_ok_unfold env media format hok]
    simp [encodeSheet, hpng, hjpg]
  · intro j hj
    obtain ⟨img, px, py, himg, hget⟩ := hspec j hj
    exact ⟨img, himg, ⟨_, hget, rfl, rfl, rfl, rfl⟩⟩

/-- Witness environment for C10: one decodable 500 by 40 image. -/
def envC10 : String → Option Img :=
  fun p => if p = "a.png" then some ⟨500, 40, 7⟩ else none

/-- Witness batch for C10. -/
def mediaC10 : List Media := [{ Path := "a.png" }]

/-- Witness for C10 at format "gif". -/
theorem C10_witness :
    ((∀ m ∈ mediaC10, (envC10 m.Path).isSome) ∧
      ("gif" : String) ≠ "png" ∧ ("gif" : String) ≠ "jpg") ∧
    ((GenerateThumbnail envC10 mediaC10 "gif").bytes = none ∧
      (GenerateThumbnail envC10 mediaC10 "gif").state.length = mediaC10.length ∧
      ∀ j (hj : j < mediaC10.length),
        ∃ img, envC10 ((mediaC10.get ⟨j, hj⟩).Path) = some img ∧
          ∃ m, (GenerateThumbnail envC10 mediaC10 "gif").state[j]? = some m ∧
            m.Width = img.width ∧ m.Height = img.height ∧
            m.ThumbWidth = (resizeDims img.width img.height).1 ∧
            m.ThumbHeight = (resizeDims img.width img.height).2) :=
  ⟨⟨by decide, by decide, by decide⟩,
    C10_mutation_before_format_failure envC10 mediaC10 "gif"
      (by decide) (by decide) (by decide)⟩

end ClaimC10

section ClaimC6

/-- C6 (confirmed).  After a successful GenerateThumbnail, every record's
placement rectangle lies inside its recorded sheet bounds and the
rectangles of distinct records of the batch are pairwise disjoint. -/
theorem C6_sheet_containment_disjoint (env : String → Option Img) (media : List Media)
    (format : String) (hbytes : (GenerateThumbnail env media format).bytes ≠ none) :
    (∀ m ∈ (GenerateThumbnail env media format).state, insideCanvas m) ∧
    (GenerateThumbnail env media format).state.Pairwise disjointRect := by
  cases hok : (decodeResize env 0 media).ok with
  | false =>
    rw [GenerateThumbnail_err_unfold env media format hok] at hbytes
    simp at hbytes
  | true =>
    rw [GenerateThumbnail_ok_unfold env media format hok] at hbytes ⊢
    simp only at hbytes ⊢
    set sorted := sortDesc (decodeResize env 0 media).containers with hsorted
    set tw := (canvasSize sorted).1 with htw
    set th := (canvasSize sorted).2 with hth
    have hrows : ∀ r ∈ layoutRows sorted, r.Pairwise (fun a b => cH b ≤ cH a) :=
      fun r hr => (sortDesc_pairwise _).sublist (mem_chunksPos_sublist _ sorted r hr)
    have hw : maxWidths (layoutRows sorted) ≤ tw := by
      rw [htw, canvasSize_eq]
    have hh : 0 + headsSum (layoutRows sorted) ≤ th := by
      rw [hth, canvasSize_eq]
      omega
    have hplaced : placePass tw th sorted = placeRows tw th 0 (layoutRows sorted) :=
      placePass_eq tw th sorted
    have hcover : ∀ j, j < media.length → ∃ d, lookupIdx j (placePass tw th sorted) = some d := by
      intro j hj
      obtain ⟨img, px, py, himg, hlook⟩ := placed_lookup env media hok tw th j hj
      exact ⟨_, hlook⟩
    constructor
    · intro m hm
      have hm₂ : ∃ a, a < media.length ∧
          ((lookupIdx a (placePass tw th sorted)).getD default).media = m := by
        simpa [reassemble] using hm
      obtain ⟨j, hjn, hjeq⟩ := hm₂
      obtain ⟨d, hd⟩ := hcover j hjn
      obtain ⟨hdmem, -⟩ := lookupIdx_eq_some_mem hd
      have hmd : m = d.media := by rw [← hjeq, hd]; rfl
      rw [hmd]
      rw [hplaced] at hdmem
      exact placeRows_inside tw th (layoutRows sorted) 0 hrows hw hh d hdmem
    · refine reassemble_pairwise media.length _ hcover ?_
      rw [hplaced]
      exact placeRows_pairwise_disjoint tw th (layoutRows sorted) 0 hrows

/-- Witness environment for C6: three decodable images of mixed sizes. -/
def envC6 : String → Option Img :=
  fun p =>
    if p = "a.png" then some ⟨400, 500, 1⟩
    else if p = "b.png" then some ⟨100, 80, 2⟩
    else if p = "c.png" then some ⟨60, 60, 3⟩
    else none

/-- Witness batch for C6. -/
def mediaC6 : List Media := [{ Path := "a.png" }, { Path := "b.png" }, { Path := "c.png" }]

/-- Witness for C6 at format "png". -/
theorem C6_witness :
    (GenerateThumbnail envC6 mediaC6 "png").bytes ≠ none ∧
    ((∀ m ∈ (GenerateThumbnail envC6 mediaC6 "png").state, insideCanvas m) ∧
      (GenerateThumbnail envC6 mediaC6 "png").state.Pairwise disjointRect) :=
  ⟨by decide, C6_sheet_containment_disjoint envC6 mediaC6 "png" (by decide)⟩

end ClaimC6

/-- External collaborators of one directory run: image decoding
(os.Open + image.Decode), raw file reading (os.ReadFile), and the
Uploader (true = the upload succeeds for this key).  Keys are the file
names relative to the directory, as all files of a run live in it. -/
structure Env where
  img : String → Option Img
  raw : String → Option Bytes
  uploadOk : String → Bool

/-- On-disk state of one directory: the manifest file (none = absent),
the scan result (none = ScanDirectory fails; scanning filters out the
thumbnails_ prefix, so written sheets never feed back into it), and the
sheet files. -/
structure Dir where
  manifest : Option Doc
  scan : Option (List String)
  sheets : String → Option Bytes

/-- Result of GenerateThumbnails on one extension group: the group's
record states, the readImage call count, the upload attempt count, the
sheet files written, and success. -/
structure GTRes where
  state : List Media
  dec : Nat
  up : Nat
  sheets : List (String × Bytes)
  ok : Bool

/-- Batch loop of GenerateThumbnails: for each batch in order, skip it
when clean, otherwise generate the sheet, stamp every record of the
batch with the checksum-qualified path, write the sheet file, and upload
it.  A generation failure or an upload failure aborts the loop; the Go
error return discards no record mutation already made. -/
def runBatches (env : Env) (format : String) (force : Bool) :
    Nat → List (List Media) → GTRes
  | _, [] => ⟨[], 0, 0, [], true⟩
  | b, files :: rest =>
    if skipBatch force files then
      let r := runBatches env format force (b + 1) rest
      ⟨files ++ r.state, r.dec, r.up, r.sheets, r.ok⟩
    else
      let g := GenerateThumbnail env.img files format
      match g.bytes with
      | none => ⟨g.state ++ rest.flatten, g.count, 0, [], false⟩
      | some bts =>
        let stamped := g.state.map (fun m => { m with ThumbPath := stampPath b format bts })
        if env.uploadOk (thumbPathName b format) then
          let r := runBatches env format force (b + 1) rest
          ⟨stamped ++ r.state, g.count + r.dec, 1 + r.up,
            (thumbPathName b format, bts) :: r.sheets, r.ok⟩
        else
          ⟨stamped ++ rest.flatten, g.count, 1, [(thumbPathName b format, bts)], false⟩

/-- Go func GenerateThumbnails: split the group into batches of
maxPerRow * maxRows records and run the batch loop. -/
def GenerateThumbnails (env : Env) (media : List Media) (format : String) (force : Bool) :
    GTRes :=
  runBatches env format force 0 (chunksPos (maxPerRow * maxRows - 1) media)

/-- Result of UploadNewMedia: the reconciled record list, the upload
attempt count, and success. -/
structure UNRes where
  media : List Media
  up : Nat
  ok : Bool

/-- Add loop of UploadNewMedia: each added filename is appended as a
fresh record, its content read and uploaded; a read error or upload
failure aborts. -/
def addLoop (env : Env) : List Media → List String → UNRes
  | media, [] => ⟨media, 0, true⟩
  | media, f :: rest =>
    match env.raw f with
    | none => ⟨media ++ [{ Path := f }], 0, false⟩
    | some _ =>
      if env.uploadOk f then
        let r := addLoop env (media ++ [{ Path := f }]) rest
        ⟨r.media, r.up + 1, r.ok⟩
      else ⟨media ++ [{ Path := f }], 1, false⟩

/-- Delete loop of UploadNewMedia: remove the first record whose Path is
the deleted filename (append(media[:i], media[i+1:]...) with break). -/
def removeFirst (p : String) : List Media → List Media
  | [] => []
  | m :: rest => if m.Path = p then rest else m :: removeFirst p rest

/-- Go func UploadNewMedia: diff the manifest against the scan, append
and upload the added files, then delete the removed ones. -/
def UploadNewMedia (env : Env) (media : List Media) (files : List String) : UNRes :=
  let d := diff media files
  let r := addLoop env media d.1
  if r.ok then ⟨d.2.foldl (fun acc p => removeFirst p acc) r.media, r.up, true⟩
  else ⟨r.media, r.up, false⟩

/-- Result of the per-group generation loop of ProcessDirectory. -/
structure PGRes where
  upd : List (String × List Media)
  dec : Nat
  up : Nat
  sheets : List (String × Bytes)
  ok : Bool

/-- Per-group loop of ProcessDirectory: GenerateThumbnails for every
extension group (the Go map iteration order is unspecified; the
association list fixes first-appearance order, and the groups touch
disjoint records so the final state does not depend on the order).  The
first failing group aborts the loop. -/
def processGroups (env : Env) (force : Bool) : List (String × List Media) → PGRes
  | [] => ⟨[], 0, 0, [], true⟩
  | (k, g) :: rest =>
    let r := GenerateThumbnails env g k force
    if r.ok then
      let pr := processGroups env force rest
      ⟨(k, r.state) :: pr.upd, r.dec + pr.dec, r.up + pr.up, r.sheets ++ pr.sheets, pr.ok⟩
    else
      ⟨(k, r.state) :: rest, r.dec, r.up, r.sheets, false⟩

/-- Replacement of one group's list in the association of groups. -/
def setGroup : List (String × List Media) → String → List Media → List (String × List Media)
  | [], _, _ => []
  | (k₀, g) :: rest, k, g2 =>
    if k₀ = k then (k₀, g2) :: rest else (k₀, g) :: setGroup rest k g2

/-- Reconstruction of the record list after the per-group mutations: in
Go the groups hold pointers into the one record list, so each record's
slot receives the next unconsumed record of its key's processed group. -/
def rebuild (upd : List (String × List Media)) : List Media → List Media
  | [] => []
  | m :: rest =>
    match findGroup upd (extKey m.Path) with
    | some (u :: us) => u :: rebuild (setGroup upd (extKey m.Path) us) rest
    | _ => m :: rebuild upd rest

/-- Sheet files after a run: the written sheets overlay the directory. -/
def applySheets (sheets : String → Option Bytes) (l : List (String × Bytes)) :
    String → Option Bytes :=
  fun p =>
    match l.lookup p with
    | some b => some b
    | none => sheets p

/-- Result of ProcessDirectory: the directory state after the call, the
readImage call count, the upload attempt count, and success. -/
structure PDRes where
  dir : Dir
  dec : Nat
  up : Nat
  ok : Bool

/-- Go func ProcessDirectory: load the manifest (absence is not fatal),
scan the directory, reconcile and upload new media, group by extension,
generate thumbnails per group, and only then save the manifest.  Any
error aborts before the manifest is rewritten. -/
def ProcessDirectory (env : Env) (d : Dir) (force : Bool) : PDRes :=
  let loaded : Except Unit (List Media) :=
    match LoadThumbsFile d.manifest with
    | Except.error LoadErr.notFound => Except.ok []
    | Except.error LoadErr.decodeErr => Except.error ()
    | Except.ok ms => Except.ok ms
  match loaded with
  | Except.error _ => ⟨d, 0, 0, false⟩
  | Except.ok media₀ =>
    match d.scan with
    | none => ⟨d, 0, 0, false⟩
    | some files =>
      let un := UploadNewMedia env media₀ files
      if un.ok then
        let pg := processGroups env force (groupByType un.media)
        if pg.ok then
          ⟨{ manifest := SaveThumbsFile d.manifest (rebuild pg.upd un.media),
             scan := d.scan,
             sheets := applySheets d.sheets pg.sheets },
           pg.dec, un.up + pg.up, true⟩
        else
          ⟨{ d with sheets := applySheets d.sheets pg.sheets }, pg.dec, un.up + pg.up, false⟩
      else ⟨d, 0, un.up, false⟩

section ClaimC9

/-- C9 (confirmed).  Manifest atomicity on error: whenever
ProcessDirectory fails (load, scan, read/upload, or thumbnail-generation
failure), the manifest file is left exactly as it was before the call;
it is rewritten only after every batch of the directory succeeded. -/
theorem C9_manifest_atomicity (env : Env) (d : Dir) (force : Bool)
    (herr : (ProcessDirectory env d force).ok = false) :
    (ProcessDirectory env d force).dir.manifest = d.manifest := by
  rw [ProcessDirectory] at herr ⊢
  cases h1 : LoadThumbsFile d.manifest with
  | error e =>
    cases e with
    | notFound =>
      simp only [h1] at herr ⊢
      cases h2 : d.scan with
      | none => simp [h2]
      | some files =>
        simp only [h2] at herr ⊢
        cases h3 : (UploadNewMedia env [] files).ok with
        | false => simp [h3]
        | true =>
          simp only [h3, if_true] at herr ⊢
          cases h4 : (processGroups env force (groupByType (UploadNewMedia env [] files).media)).ok with
          | false => simp [h4]
          | true => simp [h4] at herr
    | decodeErr => simp [h1]
  | ok media₀ =>
    simp only [h1] at herr ⊢
    cases h2 : d.scan with
    | none => simp [h2]
    | some files =>
      simp only [h2] at herr ⊢
      cases h3 : (UploadNewMedia env media₀ files).ok with
      | false => simp [h3]
      | true =>
        simp only [h3, if_true] at herr ⊢
        cases h4 : (processGroups env force (groupByType (UploadNewMedia env media₀ files).media)).ok with
        | false => simp [h4]
        | true => simp [h4] at herr

/-- Witness collaborators where every external call is trivial. -/
def envTrivial : Env := ⟨fun _ => none, fun _ => none, fun _ => true⟩

/-- Witness directory for C9: the scan fails. -/
def dirC9 : Dir := ⟨some [[("path", YVal.s "a.png")]], none, fun _ => none⟩

/-- Witness for C9 at a concrete failing directory. -/
theorem C9_witness :
    (ProcessDirectory envTrivial dirC9 false).ok = false ∧
    (ProcessDirectory envTrivial dirC9 false).dir.manifest = dirC9.manifest :=
  ⟨by decide, C9_manifest_atomicity envTrivial dirC9 false (by decide)⟩

end ClaimC9

section RunBatchesSpec

/-- Outcome of one batch in the batch loop: either the batch was clean
and its records are untouched, or it was regenerated and every record of
the batch carries the checksum-stamped path of the generated sheet. -/
def batchResult (env : Env) (format : String) (force : Bool) (b : Nat)
    (files out : List Media) : Prop :=
  (skipBatch force files = true ∧ out = files) ∨
  (skipBatch force files = false ∧
    ∃ B, (GenerateThumbnail env.img files format).bytes = some B ∧
      out = (GenerateThumbnail env.img files format).state.map
        (fun m => { m with ThumbPath := stampPath b format B }))

/-- Batchwise relation between the input batches (numbered from b) and
their outputs. -/
inductive BatchesRel (env : Env) (format : String) (force : Bool) :
    Nat → List (List Media) → List (List Media) → Prop
  | nil (b : Nat) : BatchesRel env format force b [] []
  | cons (b : Nat) (files out : List Media) (bs outs : List (List Media)) :
      batchResult env format force b files out →
      BatchesRel env format force (b + 1) bs outs →
      BatchesRel env format force b (files :: bs) (out :: outs)

theorem runBatches_ok_spec (env : Env) (format : String) (force : Bool) :
    ∀ (bs : List (List Media)) (b : Nat),
      (runBatches env format force b bs).ok = true →
      ∃ outs, (runBatches env format force b bs).state = outs.flatten ∧
        BatchesRel env format force b bs outs := by
  intro bs
  induction bs with
  | nil => intro b _; exact ⟨[], rfl, BatchesRel.nil b⟩
  | cons files rest ih =>
    intro b hok
    simp only [runBatches] at hok ⊢
    by_cases hskip : skipBatch force files = true
    · rw [if_pos hskip] at hok ⊢
      simp only at hok ⊢
      obtain ⟨outs, hst, hrel⟩ := ih (b + 1) hok
      exact ⟨files :: outs, by rw [List.flatten_cons, hst],
        BatchesRel.cons b files files rest outs (Or.inl ⟨hskip, rfl⟩) hrel⟩
    · rw [if_neg hskip] at hok ⊢
      cases hbytes : (GenerateThumbnail env.img files format).bytes with
      | none => simp only [hbytes] at hok; simp at hok
      | some bts =>
        simp only [hbytes] at hok ⊢
        by_cases hup : env.uploadOk (thumbPathName b format) = true
        · rw [if_pos hup] at hok ⊢
          simp only at hok ⊢
          obtain ⟨outs, hst, hrel⟩ := ih (b + 1) hok
          refine ⟨(GenerateThumbnail env.img files format).state.map
              (fun m => { m with ThumbPath := stampPath b format bts }) :: outs,
            by rw [List.flatten_cons, hst], ?_⟩
          exact BatchesRel.cons b files _ rest outs
            (Or.inr ⟨by simpa using hskip, bts, hbytes, rfl⟩) hrel
        · rw [if_neg hup] at hok
          simp at hok

theorem stampPath_ne_empty (b : Nat) (format : String) (B : Bytes) :
    stampPath b format B ≠ "" := by
  intro h
  have hlen := congrArg String.length h
  rw [stampPath, thumbPathName] at hlen
  simp only [String.length_append] at hlen
  have h11 : ("thumbnails_" : String).length = 11 := by decide
  have h0 : ("" : String).length = 0 := by decide
  omega

theorem BatchesRel_paths (env : Env) (format : String) (force : Bool) :
    ∀ {b bs outs}, BatchesRel env format force b bs outs →
      outs.map (fun l => l.map (fun m => m.Path)) =
        bs.map (fun l => l.map (fun m => m.Path)) := by
  intro b bs outs hrel
  induction hrel with
  | nil => rfl
  | cons b files out bs outs hres hrest ih =>
    rw [List.map_cons, List.map_cons, ih]
    rcases hres with ⟨-, rfl⟩ | ⟨-, B, hB, rfl⟩
    · rfl
    · rw [List.cons.injEq]
      refine ⟨?_, rfl⟩
      rw [List.map_map]
      exact GenerateThumbnail_paths env.img files format

theorem BatchesRel_uniform (env : Env) (format : String) :
    ∀ {b bs outs}, BatchesRel env format false b bs outs →
      ∀ out ∈ outs, ∃ tp, tp ≠ "" ∧ ∀ m ∈ out, m.ThumbPath = tp := by
  intro b bs outs hrel
  induction hrel with
  | nil => intro out hout; simp at hout
  | cons b files out bs outs hres hrest ih =>
    intro o ho
    rcases List.mem_cons.mp ho with heq | ho₂
    · rcases hres with ⟨hskip, hout⟩ | ⟨-, B, hB, hout⟩
      · rw [heq, hout]
        cases files with
        | nil => exact ⟨"x", by decide, fun m hm => by simp at hm⟩
        | cons f₀ frest =>
          have hflags : batchFlags f₀.ThumbPath (f₀ :: frest) = (true, true) := by
            rw [skipBatch] at hskip
            simp only [Bool.false_eq_true, if_false] at hskip
            rcases hbf : batchFlags f₀.ThumbPath (f₀ :: frest) with ⟨a, b₂⟩
            rw [hbf] at hskip
            simp only [Bool.and_eq_true] at hskip
            simp [hskip.1, hskip.2]
          have hall := (batchFlags_eq_true_iff (f₀ :: frest) f₀.ThumbPath).mp hflags
          exact ⟨f₀.ThumbPath, (hall f₀ (by simp)).1,
            fun m hm => (hall m hm).2⟩
      · rw [heq, hout]
        exact ⟨stampPath b format B, stampPath_ne_empty b format B,
          fun m hm => by
            obtain ⟨m₀, hm₀, rfl⟩ := List.mem_map.mp hm
            rfl⟩
    · exact ih o ho₂

end RunBatchesSpec

section GroupLevelSpec

theorem runBatches_all_skip (env : Env) (format : String) (force : Bool) :
    ∀ (bs : List (List Media)) (b : Nat),
      (∀ files ∈ bs, skipBatch force files = true) →
      runBatches env format force b bs = ⟨bs.flatten, 0, 0, [], true⟩ := by
  intro bs
  induction bs with
  | nil => intro b _; rfl
  | cons files rest ih =>
    intro b hall
    simp only [runBatches, if_pos (hall files (by simp))]
    rw [ih (b + 1) (fun f hf => hall f (by simp [hf]))]
    simp [List.flatten_cons]

/-- A group whose batches are all clean passes through GenerateThumbnails
untouched: no decode, no upload, no sheet written. -/
theorem GenerateThumbnails_all_skip (env : Env) (media : List Media) (format : String)
    (force : Bool)
    (hall : ∀ files ∈ chunksPos (maxPerRow * maxRows - 1) media,
      skipBatch force files = true) :
    GenerateThumbnails env media format force = ⟨media, 0, 0, [], true⟩ := by
  rw [GenerateThumbnails, runBatches_all_skip env format force _ 0 hall, chunksPos_flatten]

theorem chunksPos_cons_of_ne_nil (n : Nat) (l : List α) (h : l ≠ []) :
    chunksPos n l = l.take (n + 1) :: chunksPos n (l.drop (n + 1)) := by
  cases l with
  | nil => exact absurd rfl h
  | cons a rest => exact chunksPos_cons n a rest

/-- Lists with the chunk-length profile of some source list re-chunk to
themselves: chunking the concatenation of the batch outputs recovers
exactly the batch outputs. -/
theorem chunksPos_flatten_profile (n : Nat) :
    ∀ (l : List Media) (outs : List (List Media)),
      List.Forall₂ (fun (r out : List Media) => r.length = out.length)
        (chunksPos n l) outs →
      chunksPos n outs.flatten = outs := by
  intro l
  induction l using chunksPos_ind n with
  | h0 =>
    intro outs h
    rw [chunksPos_nil] at h
    cases h
    rfl
  | h1 a rest ih =>
    intro outs h
    rw [chunksPos_cons] at h
    cases h with
    | cons hlen hrest =>
      rename_i out₀ outs'
      rw [List.flatten_cons]
      have hout₀ : out₀ ≠ [] := by
        intro hnil
        rw [hnil] at hlen
        simp [List.length_take] at hlen
      have hout₀len : out₀.length ≤ n + 1 := by
        rw [← hlen]
        simp [List.length_take]
      by_cases hcase : rest.length + 1 ≤ n + 1
      · have hdrop : (a :: rest).drop (n + 1) = [] :=
          List.drop_eq_nil_of_le (by simpa using hcase)
        rw [hdrop, chunksPos_nil] at hrest
        cases hrest
        simp only [List.flatten_nil, List.append_nil]
        rw [chunksPos_cons_of_ne_nil n out₀ hout₀,
          List.take_of_length_le hout₀len, List.drop_eq_nil_of_le hout₀len, chunksPos_nil]
      · have hlen₀ : out₀.length = n + 1 := by
          rw [← hlen]
          simp only [List.length_take, List.length_cons]
          omega
        have hne : out₀ ++ outs'.flatten ≠ [] := by
          intro hnil
          rw [List.append_eq_nil] at hnil
          exact hout₀ hnil.1
        rw [chunksPos_cons_of_ne_nil n _ hne, List.take_left' hlen₀, List.drop_left' hlen₀,
          ih outs' hrest]

theorem map_eq_forall₂ {α β : Type} (g : α → β) :
    ∀ (l₁ l₂ : List α), l₁.map g = l₂.map g →
      List.Forall₂ (fun a b => g a = g b) l₁ l₂ := by
  intro l₁
  induction l₁ with
  | nil =>
    intro l₂ h
    cases l₂ with
    | nil => exact List.Forall₂.nil
    | cons b rest => simp at h
  | cons a rest ih =>
    intro l₂ h
    cases l₂ with
    | nil => simp at h
    | cons b rest₂ =>
      simp only [List.map_cons, List.cons.injEq] at h
      exact List.Forall₂.cons h.1 (ih rest₂ h.2)

/-- Characterization of a successful GenerateThumbnails on a group with
force off: record paths are preserved in order, and every batch of the
resulting group is clean (its records share one non-empty ThumbPath). -/
theorem GenerateThumbnails_ok_char (env : Env) (media : List Media) (format : String)
    (hok : (GenerateThumbnails env media format false).ok = true) :
    (GenerateThumbnails env media format false).state.map (fun m => m.Path) =
      media.map (fun m => m.Path) ∧
    ∀ files ∈ chunksPos (maxPerRow * maxRows - 1)
        (GenerateThumbnails env media format false).state,
      skipBatch false files = true := by
  rw [GenerateThumbnails] at hok ⊢
  obtain ⟨outs, hstate, hrel⟩ :=
    runBatches_ok_spec env format false (chunksPos (maxPerRow * maxRows - 1) media) 0 hok
  have hpaths := BatchesRel_paths env format false hrel
  have hmap : (runBatches env format false 0
      (chunksPos (maxPerRow * maxRows - 1) media)).state.map (fun m => m.Path) =
      media.map (fun m => m.Path) := by
    rw [hstate, List.map_flatten, hpaths, ← List.map_flatten, chunksPos_flatten]
  refine ⟨hmap, ?_⟩
  have hprof : List.Forall₂ (fun (r out : List Media) => r.length = out.length)
      (chunksPos (maxPerRow * maxRows - 1) media) outs := by
    have hf := map_eq_forall₂ (List.map (fun m => m.Path))
      (chunksPos (maxPerRow * maxRows - 1) media) outs hpaths.symm
    exact hf.imp (fun a b h => by
      have := congrArg List.length h
      simpa using this)
  have hchunks : chunksPos (maxPerRow * maxRows - 1)
      (runBatches env format false 0 (chunksPos (maxPerRow * maxRows - 1) media)).state =
      outs := by
    rw [hstate]
    exact chunksPos_flatten_profile _ media outs hprof
  rw [hchunks]
  intro files hfiles
  obtain ⟨tp, htp, hall⟩ := BatchesRel_uniform env format hrel files hfiles
  cases files with
  | nil => rfl
  | cons f₀ frest =>
    rw [skipBatch]
    simp only [Bool.false_eq_true, if_false]
    have hflags : batchFlags f₀.ThumbPath (f₀ :: frest) = (true, true) := by
      rw [batchFlags_eq_true_iff]
      intro f hf
      rw [hall f hf, hall f₀ (by simp)]
      exact ⟨htp, rfl⟩
    rw [hflags]
    rfl

end GroupLevelSpec

section ProcessGroupsSpec

theorem processGroups_ok_spec (env : Env) (force : Bool) :
    ∀ gs, (processGroups env force gs).ok = true →
      (processGroups env force gs).upd =
        gs.map (fun kg => (kg.1, (GenerateThumbnails env kg.2 kg.1 force).state)) ∧
      ∀ kg ∈ gs, (GenerateThumbnails env kg.2 kg.1 force).ok = true := by
  intro gs
  induction gs with
  | nil => intro _; exact ⟨rfl, fun kg h => by simp at h⟩
  | cons kg rest ih =>
    intro hok
    obtain ⟨k, g⟩ := kg
    simp only [processGroups] at hok ⊢
    cases hgt : (GenerateThumbnails env g k force).ok with
    | false => simp [hgt] at hok
    | true =>
      rw [hgt, if_pos rfl] at hok
      rw [if_pos rfl]
      have hok₂ : (processGroups env force rest).ok = true := hok
      obtain ⟨hupd, hall⟩ := ih hok₂
      refine ⟨?_, ?_⟩
      · show (k, (GenerateThumbnails env g k force).state) ::
            (processGroups env force rest).upd =
          List.map (fun kg => (kg.1, (GenerateThumbnails env kg.2 kg.1 force).state))
            ((k, g) :: rest)
        rw [hupd, List.map_cons]
      · intro kg₂ hkg₂
        rcases List.mem_cons.mp hkg₂ with rfl | h₂
        · exact hgt
        · exact hall kg₂ h₂

theorem processGroups_noop (env : Env) (force : Bool) :
    ∀ gs, (∀ kg ∈ gs, GenerateThumbnails env kg.2 kg.1 force = ⟨kg.2, 0, 0, [], true⟩) →
      processGroups env force gs = ⟨gs, 0, 0, [], true⟩ := by
  intro gs
  induction gs with
  | nil => intro _; rfl
  | cons kg rest ih =>
    intro hall
    obtain ⟨k, g⟩ := kg
    simp only [processGroups]
    rw [hall (k, g) (by simp)]
    rw [if_pos rfl]
    rw [ih (fun kg₂ h => hall kg₂ (by simp [h]))]
    rfl

end ProcessGroupsSpec

section UploadNewMediaSpec

theorem contains_of_mem {l : List String} {a : String} (h : a ∈ l) : contains l a = true := by
  simp only [contains, List.any_eq_true, beq_iff_eq]
  exact ⟨a, h, rfl⟩

theorem mem_of_contains {l : List String} {a : String} (h : contains l a = true) : a ∈ l := by
  simp only [contains, List.any_eq_true, beq_iff_eq] at h
  obtain ⟨b, hb, hEq⟩ := h
  exact hEq ▸ hb

theorem addLoop_ok (env : Env) :
    ∀ (fs : List String) (media : List Media), (addLoop env media fs).ok = true →
      addLoop env media fs =
        ⟨media ++ fs.map (fun f => { Path := f }), fs.length, true⟩ := by
  intro fs
  induction fs with
  | nil => intro media _; simp [addLoop]
  | cons f rest ih =>
    intro media hok
    simp only [addLoop] at hok ⊢
    cases hraw : env.raw f with
    | none => rw [hraw] at hok; simp at hok
    | some c =>
      rw [hraw] at hok
      cases hup : env.uploadOk f with
      | false => rw [hup] at hok; simp at hok
      | true =>
        rw [hup] at hok
        have hok₂ : (addLoop env (media ++ [{ Path := f }]) rest).ok = true := hok
        rw [ih _ hok₂]
        simp

theorem foldl_removeFirst_skip :
    ∀ (D : List String) (m : Media) (L : List Media),
      (∀ p ∈ D, p ≠ m.Path) →
      D.foldl (fun acc p => removeFirst p acc) (m :: L) =
        m :: D.foldl (fun acc p => removeFirst p acc) L := by
  intro D
  induction D with
  | nil => intro m L _; rfl
  | cons p rest ih =>
    intro m L hne
    simp only [List.foldl_cons]
    rw [show removeFirst p (m :: L) = m :: removeFirst p L by
      rw [removeFirst, if_neg (fun h => hne p (by simp) h.symm)]]
    exact ih m (removeFirst p L) (fun q hq => hne q (by simp [hq]))

theorem foldl_removeFirst_filter (files : List String) :
    ∀ (L A : List Media), (∀ a ∈ A, contains files a.Path = true) →
      ((L.filter (fun m => !contains files m.Path)).map (fun m => m.Path)).foldl
        (fun acc p => removeFirst p acc) (L ++ A) =
      L.filter (fun m => contains files m.Path) ++ A := by
  intro L
  induction L with
  | nil => intro A _; simp
  | cons m rest ih =>
    intro A hA
    cases hc : contains files m.Path with
    | false =>
      have h₁ : (m :: rest).filter (fun x => !contains files x.Path) =
          m :: rest.filter (fun x => !contains files x.Path) := by
        rw [List.filter_cons, hc]; rfl
      have h₂ : (m :: rest).filter (fun x => contains files x.Path) =
          rest.filter (fun x => contains files x.Path) := by
        rw [List.filter_cons, hc]; rfl
      rw [h₁, h₂, List.map_cons, List.cons_append, List.foldl_cons]
      rw [show removeFirst m.Path (m :: (rest ++ A)) = rest ++ A by
        rw [removeFirst, if_pos rfl]]
      exact ih A hA
    | true =>
      have h₁ : (m :: rest).filter (fun x => !contains files x.Path) =
          rest.filter (fun x => !contains files x.Path) := by
        rw [List.filter_cons, hc]; rfl
      have h₂ : (m :: rest).filter (fun x => contains files x.Path) =
          m :: rest.filter (fun x => contains files x.Path) := by
        rw [List.filter_cons, hc]; rfl
      have hD : ∀ p ∈ (rest.filter (fun x => !contains files x.Path)).map
          (fun x => x.Path), p ≠ m.Path := by
        intro p hp hpm
        obtain ⟨x, hx, rfl⟩ := List.mem_map.mp hp
        have hno := (List.mem_filter.mp hx).2
        rw [hpm, hc] at hno
        simp at hno
      rw [h₁, h₂, List.cons_append, foldl_removeFirst_skip _ m (rest ++ A) hD,
        ih A hA, List.cons_append]

theorem UploadNewMedia_ok_char (env : Env) (media : List Media) (files : List String)
    (hok : (UploadNewMedia env media files).ok = true) :
    UploadNewMedia env media files =
      ⟨media.filter (fun m => contains files m.Path) ++
        (files.filter (fun f => !containsMedia media f)).map (fun f => { Path := f }),
       (files.filter (fun f => !containsMedia media f)).length, true⟩ := by
  have hA : ∀ a ∈ (files.filter (fun f => !containsMedia media f)).map
      (fun f => ({ Path := f } : Media)), contains files a.Path = true := by
    intro a ha
    obtain ⟨f, hf, rfl⟩ := List.mem_map.mp ha
    exact contains_of_mem (List.mem_filter.mp hf).1
  have hd : UploadNewMedia env media files =
      if (addLoop env media (files.filter (fun f => !containsMedia media f))).ok = true then
        ⟨((media.filter (fun m => !contains files m.Path)).map (fun m => m.Path)).foldl
            (fun acc p => removeFirst p acc)
            (addLoop env media (files.filter (fun f => !containsMedia media f))).media,
          (addLoop env media (files.filter (fun f => !containsMedia media f))).up, true⟩
      else
        ⟨(addLoop env media (files.filter (fun f => !containsMedia media f))).media,
          (addLoop env media (files.filter (fun f => !containsMedia media f))).up, false⟩ := rfl
  cases haddok : (addLoop env media (files.filter (fun f => !containsMedia media f))).ok with
  | false =>
    rw [hd, haddok] at hok
    simp at hok
  | true =>
    have hfold := foldl_removeFirst_filter files media
      ((files.filter (fun f => !containsMedia media f)).map (fun f => ({ Path := f } : Media))) hA
    rw [hd, haddok, if_pos rfl, addLoop_ok env _ media haddok]
    simp only [hfold]

end UploadNewMediaSpec

section AssocLemmas

theorem findGroup_mem (l : List (String × List Media)) (k : String) (g : List Media)
    (h : findGroup l k = some g) : (k, g) ∈ l := by
  induction l with
  | nil => simp [findGroup] at h
  | cons p rest ih =>
    obtain ⟨k₀, g₀⟩ := p
    rw [findGroup] at h
    by_cases hk : k₀ = k
    · rw [if_pos hk] at h
      obtain rfl := Option.some.inj h
      subst hk
      exact List.mem_cons_self _ _
    · rw [if_neg hk] at h
      exact List.mem_cons_of_mem _ (ih h)

theorem findGroup_of_mem_nodup (l : List (String × List Media)) (k : String) (g : List Media)
    (hnd : (l.map Prod.fst).Nodup) (hmem : (k, g) ∈ l) : findGroup l k = some g := by
  induction l with
  | nil => simp at hmem
  | cons p rest ih =>
    obtain ⟨k₀, g₀⟩ := p
    rw [List.map_cons, List.nodup_cons] at hnd
    rcases List.mem_cons.mp hmem with heq | htail
    · obtain ⟨rfl, rfl⟩ := Prod.mk.injEq .. ▸ heq
      injection heq with h1 h2
      rw [findGroup, if_pos rfl]
    · by_cases hk : k₀ = k
      · subst hk
        exact absurd (List.mem_map.mpr ⟨(k₀, g), htail, rfl⟩) hnd.1
      · rw [findGroup, if_neg hk]
        exact ih hnd.2 htail

theorem addToGroup_keys (l : List (String × List Media)) (k : String) (m : Media) :
    (addToGroup l k m).map Prod.fst =
      if k ∈ l.map Prod.fst then l.map Prod.fst else l.map Prod.fst ++ [k] := by
  induction l with
  | nil => simp [addToGroup]
  | cons p rest ih =>
    obtain ⟨k₀, g₀⟩ := p
    by_cases hk : k₀ = k
    · subst hk
      rw [addToGroup, if_pos rfl, List.map_cons, List.map_cons,
        if_pos (List.mem_cons_self _ _)]
    · rw [addToGroup, if_neg hk, List.map_cons, List.map_cons, ih]
      by_cases hmem : k ∈ rest.map Prod.fst
      · rw [if_pos hmem, if_pos (List.mem_cons_of_mem _ hmem)]
      · rw [if_neg hmem, if_neg (by
          intro hx
          rcases List.mem_cons.mp hx with heq | htl
          · exact hk heq.symm
          · exact hmem htl), List.cons_append]

theorem groupByType_keys_nodup (media : List Media) :
    ((groupByType media).map Prod.fst).Nodup := by
  induction media using List.reverseRecOn with
  | nil => simp [groupByType]
  | append_singleton ms m ih =>
    have hfold : groupByType (ms ++ [m]) =
        addToGroup (groupByType ms) (extKey m.Path) m := by
      simp [groupByType, List.foldl_append]
    rw [hfold, addToGroup_keys]
    by_cases hmem : extKey m.Path ∈ (groupByType ms).map Prod.fst
    · rw [if_pos hmem]; exact ih
    · rw [if_neg hmem]
      simp only [List.nodup_append, List.nodup_cons, List.nodup_nil]
      exact ⟨ih, ⟨by simp, trivial⟩, by simpa using hmem⟩

theorem mem_groupByType (media : List Media) (kg : String × List Media)
    (h : kg ∈ groupByType media) :
    kg.2 = media.filter (fun m => extKey m.Path == kg.1) := by
  obtain ⟨k, g⟩ := kg
  have hfg := findGroup_of_mem_nodup (groupByType media) k g (groupByType_keys_nodup media) h
  have hgo : groupOf media k = g := by rw [groupOf, hfg, Option.getD_some]
  rw [← hgo, groupOf_eq_filter]

theorem findGroup_map (F : String → List Media → List Media) :
    ∀ (l : List (String × List Media)) (k : String),
      findGroup (l.map (fun kg => (kg.1, F kg.1 kg.2))) k = (findGroup l k).map (F k) := by
  intro l
  induction l with
  | nil => intro k; rfl
  | cons p rest ih =>
    intro k
    obtain ⟨k₀, g₀⟩ := p
    by_cases hk : k₀ = k
    · subst hk
      rw [List.map_cons, findGroup, findGroup, if_pos rfl, if_pos rfl, Option.map_some']
    · rw [List.map_cons, findGroup, findGroup, if_neg hk, if_neg hk, ih]

theorem findGroup_setGroup_self (l : List (String × List Media)) (k : String)
    (g v : List Media) (h : findGroup l k = some g) :
    findGroup (setGroup l k v) k = some v := by
  induction l with
  | nil => simp [findGroup] at h
  | cons p rest ih =>
    obtain ⟨k₀, g₀⟩ := p
    by_cases hk : k₀ = k
    · rw [setGroup, if_pos hk, findGroup, if_pos hk]
    · rw [findGroup, if_neg hk] at h
      rw [setGroup, if_neg hk, findGroup, if_neg hk]
      exact ih h

theorem findGroup_setGroup_other (l : List (String × List Media)) (k k₂ : String)
    (v : List Media) (h : k ≠ k₂) :
    findGroup (setGroup l k v) k₂ = findGroup l k₂ := by
  induction l with
  | nil => rfl
  | cons p rest ih =>
    obtain ⟨k₀, g₀⟩ := p
    by_cases hk : k₀ = k
    · subst hk
      have hne : ¬ k₀ = k₂ := h
      rw [setGroup, if_pos rfl, findGroup, if_neg hne, findGroup, if_neg hne]
    · rw [setGroup, if_neg hk, findGroup, findGroup]
      by_cases hk₂ : k₀ = k₂
      · rw [if_pos hk₂, if_pos hk₂]
      · rw [if_neg hk₂, if_neg hk₂, ih]

end AssocLemmas

section RebuildLemmas

theorem rebuild_cons_found (upd : List (String × List Media)) (m : Media)
    (rest : List Media) (u : Media) (us : List Media)
    (h : findGroup upd (extKey m.Path) = some (u :: us)) :
    rebuild upd (m :: rest) = u :: rebuild (setGroup upd (extKey m.Path) us) rest := by
  rw [rebuild, h]

theorem rebuild_spec :
    ∀ (M : List Media) (upd : List (String × List Media)),
      (∀ k, ((findGroup upd k).getD []).map (fun m => m.Path) =
        (M.filter (fun m => extKey m.Path == k)).map (fun m => m.Path)) →
      (rebuild upd M).map (fun m => m.Path) = M.map (fun m => m.Path) ∧
      ∀ k, (rebuild upd M).filter (fun m => extKey m.Path == k) =
        (findGroup upd k).getD [] := by
  intro M
  induction M with
  | nil =>
    intro upd hinv
    refine ⟨rfl, fun k => ?_⟩
    have h := (hinv k).symm
    simp only [List.filter_nil, List.map_nil] at h
    rw [rebuild]
    exact (List.map_eq_nil_iff.mp h.symm).symm
  | cons m rest ih =>
    intro upd hinv
    have hk := hinv (extKey m.Path)
    rw [List.filter_cons, if_pos (by simp), List.map_cons] at hk
    cases hfg : findGroup upd (extKey m.Path) with
    | none => rw [hfg] at hk; simp at hk
    | some l =>
      rw [hfg, Option.getD_some] at hk
      cases l with
      | nil => simp at hk
      | cons u us =>
        rw [List.map_cons, List.cons.injEq] at hk
        obtain ⟨huP, hus⟩ := hk
        have hinv₂ : ∀ k, ((findGroup (setGroup upd (extKey m.Path) us) k).getD []).map
            (fun m => m.Path) =
            (rest.filter (fun m => extKey m.Path == k)).map (fun m => m.Path) := by
          intro k
          by_cases hkk : extKey m.Path = k
          · rw [← hkk, findGroup_setGroup_self upd _ (u :: us) us hfg, Option.getD_some]
            exact hus
          · rw [findGroup_setGroup_other upd _ k us hkk]
            have h₂ := hinv k
            rw [List.filter_cons, if_neg (by simp [hkk])] at h₂
            exact h₂
        obtain ⟨ihp, ihf⟩ := ih (setGroup upd (extKey m.Path) us) hinv₂
        rw [rebuild_cons_found upd m rest u us hfg]
        refine ⟨?_, ?_⟩
        · rw [List.map_cons, ihp, huP, List.map_cons]
        · intro k
          rw [List.filter_cons]
          by_cases hkk : extKey m.Path = k
          · rw [if_pos (by rw [huP, hkk]; simp), ihf k, ← hkk,
              findGroup_setGroup_self upd _ (u :: us) us hfg, Option.getD_some,
              hfg, Option.getD_some]
          · rw [if_neg (by rw [huP]; simp [hkk]), ihf k,
              findGroup_setGroup_other upd _ k us hkk]

theorem rebuild_of_filters :
    ∀ (M : List Media) (upd : List (String × List Media)),
      (∀ k, (findGroup upd k).getD [] = M.filter (fun m => extKey m.Path == k)) →
      rebuild upd M = M := by
  intro M
  induction M with
  | nil => intro upd _; rfl
  | cons m rest ih =>
    intro upd hinv
    have hk := hinv (extKey m.Path)
    rw [List.filter_cons, if_pos (by simp)] at hk
    cases hfg : findGroup upd (extKey m.Path) with
    | none => rw [hfg] at hk; simp at hk
    | some l =>
      rw [hfg, Option.getD_some] at hk
      subst hk
      rw [rebuild_cons_found upd m rest m _ hfg]
      rw [ih (setGroup upd (extKey m.Path) (rest.filter (fun x => extKey x.Path == extKey m.Path)))]
      intro k
      by_cases hkk : extKey m.Path = k
      · rw [← hkk, findGroup_setGroup_self upd _ _ _ hfg, Option.getD_some]
      · rw [findGroup_setGroup_other upd _ k _ hkk]
        have h₂ := hinv k
        rw [List.filter_cons, if_neg (by simp [hkk])] at h₂
        exact h₂

theorem rebuild_groupByType_self (M : List Media) : rebuild (groupByType M) M = M := by
  refine rebuild_of_filters M (groupByType M) (fun k => ?_)
  exact groupOf_eq_filter M k

end RebuildLemmas

section ProcessDirectorySpec

theorem containsMedia_eq_mem (l : List Media) (f : String) :
    containsMedia l f = true ↔ f ∈ l.map (fun m => m.Path) := by
  constructor
  · intro h
    simp only [containsMedia, List.any_eq_true, beq_iff_eq] at h
    obtain ⟨m, hm, hp⟩ := h
    exact List.mem_map.mpr ⟨m, hm, hp⟩
  · intro h
    obtain ⟨m, hm, hp⟩ := List.mem_map.mp h
    simp only [containsMedia, List.any_eq_true, beq_iff_eq]
    exact ⟨m, hm, hp⟩

theorem UploadNewMedia_noop (env : Env) (media : List Media) (files : List String)
    (h₁ : ∀ m ∈ media, contains files m.Path = true)
    (h₂ : ∀ f ∈ files, containsMedia media f = true) :
    UploadNewMedia env media files = ⟨media, 0, true⟩ := by
  have hadd : files.filter (fun f => !containsMedia media f) = [] := by
    rw [List.filter_eq_nil_iff]
    intro f hf
    simp [h₂ f hf]
  have hdel : media.filter (fun m => !contains files m.Path) = [] := by
    rw [List.filter_eq_nil_iff]
    intro m hm
    simp [h₁ m hm]
  have hd : UploadNewMedia env media files =
      if (addLoop env media (files.filter (fun f => !containsMedia media f))).ok = true then
        ⟨((media.filter (fun m => !contains files m.Path)).map (fun m => m.Path)).foldl
            (fun acc p => removeFirst p acc)
            (addLoop env media (files.filter (fun f => !containsMedia media f))).media,
          (addLoop env media (files.filter (fun f => !containsMedia media f))).up, true⟩
      else
        ⟨(addLoop env media (files.filter (fun f => !containsMedia media f))).media,
          (addLoop env media (files.filter (fun f => !containsMedia media f))).up, false⟩ := rfl
  rw [hd, hadd, hdel]
  rfl

/-- Tail of ProcessDirectory after a successful load and scan. -/
def PDstep (env : Env) (d : Dir) (force : Bool) (media₀ : List Media)
    (files : List String) : PDRes :=
  let un := UploadNewMedia env media₀ files
  if un.ok then
    let pg := processGroups env force (groupByType un.media)
    if pg.ok then
      ⟨{ manifest := SaveThumbsFile d.manifest (rebuild pg.upd un.media),
         scan := d.scan,
         sheets := applySheets d.sheets pg.sheets },
       pg.dec, un.up + pg.up, true⟩
    else
      ⟨{ d with sheets := applySheets d.sheets pg.sheets }, pg.dec, un.up + pg.up, false⟩
  else ⟨d, 0, un.up, false⟩

theorem ProcessDirectory_run (env : Env) (d : Dir) (force : Bool) (media₀ : List Media)
    (files : List String)
    (hload : (match LoadThumbsFile d.manifest with
      | Except.error LoadErr.notFound => Except.ok []
      | Except.error LoadErr.decodeErr => Except.error ()
      | Except.ok ms => (Except.ok ms : Except Unit (List Media))) = Except.ok media₀)
    (hscan : d.scan = some files) :
    ProcessDirectory env d force = PDstep env d force media₀ files := by
  show (match (match LoadThumbsFile d.manifest with
      | Except.error LoadErr.notFound => Except.ok []
      | Except.error LoadErr.decodeErr => Except.error ()
      | Except.ok ms => (Except.ok ms : Except Unit (List Media))) with
    | Except.error _ => (⟨d, 0, 0, false⟩ : PDRes)
    | Except.ok media₁ =>
      match d.scan with
      | none => ⟨d, 0, 0, false⟩
      | some fs => PDstep env d force media₁ fs) = PDstep env d force media₀ files
  rw [hload, hscan]

theorem ProcessDirectory_ok_inv (env : Env) (d : Dir) (force : Bool)
    (h : (ProcessDirectory env d force).ok = true) :
    ∃ media₀ files,
      (match LoadThumbsFile d.manifest with
        | Except.error LoadErr.notFound => Except.ok []
        | Except.error LoadErr.decodeErr => Except.error ()
        | Except.ok ms => (Except.ok ms : Except Unit (List Media))) = Except.ok media₀ ∧
      d.scan = some files := by
  cases hL : (match LoadThumbsFile d.manifest with
      | Except.error LoadErr.notFound => Except.ok []
      | Except.error LoadErr.decodeErr => Except.error ()
      | Except.ok ms => (Except.ok ms : Except Unit (List Media))) with
  | error e =>
    have hPD : ProcessDirectory env d force = ⟨d, 0, 0, false⟩ := by
      show (match (match LoadThumbsFile d.manifest with
          | Except.error LoadErr.notFound => Except.ok []
          | Except.error LoadErr.decodeErr => Except.error ()
          | Except.ok ms => (Except.ok ms : Except Unit (List Media))) with
        | Except.error _ => (⟨d, 0, 0, false⟩ : PDRes)
        | Except.ok media₁ =>
          match d.scan with
          | none => ⟨d, 0, 0, false⟩
          | some fs => PDstep env d force media₁ fs) = ⟨d, 0, 0, false⟩
      rw [hL]
    rw [hPD] at h
    simp at h
  | ok media₀ =>
    cases hs : d.scan with
    | none =>
      have hPD : ProcessDirectory env d force = ⟨d, 0, 0, false⟩ := by
        show (match (match LoadThumbsFile d.manifest with
            | Except.error LoadErr.notFound => Except.ok []
            | Except.error LoadErr.decodeErr => Except.error ()
            | Except.ok ms => (Except.ok ms : Except Unit (List Media))) with
          | Except.error _ => (⟨d, 0, 0, false⟩ : PDRes)
          | Except.ok media₁ =>
            match d.scan with
            | none => ⟨d, 0, 0, false⟩
            | some fs => PDstep env d force media₁ fs) = ⟨d, 0, 0, false⟩
        rw [hL, hs]
      rw [hPD] at h
      simp at h
    | some files => exact ⟨media₀, files, rfl, rfl⟩

theorem PDstep_ok_inv (env : Env) (d : Dir) (force : Bool) (media₀ : List Media)
    (files : List String) (h : (PDstep env d force media₀ files).ok = true) :
    (UploadNewMedia env media₀ files).ok = true ∧
    (processGroups env force (groupByType (UploadNewMedia env media₀ files).media)).ok =
      true := by
  simp only [PDstep] at h
  cases hun : (UploadNewMedia env media₀ files).ok with
  | false => rw [hun] at h; simp at h
  | true =>
    rw [hun, if_pos rfl] at h
    cases hpg : (processGroups env force
        (groupByType (UploadNewMedia env media₀ files).media)).ok with
    | false => rw [hpg] at h; simp at h
    | true => exact ⟨rfl, rfl⟩

theorem PDstep_ok (env : Env) (d : Dir) (force : Bool) (media₀ : List Media)
    (files : List String)
    (hun : (UploadNewMedia env media₀ files).ok = true)
    (hpg : (processGroups env force
      (groupByType (UploadNewMedia env media₀ files).media)).ok = true) :
    PDstep env d force media₀ files =
      ⟨{ manifest := SaveThumbsFile d.manifest
           (rebuild (processGroups env force
               (groupByType (UploadNewMedia env media₀ files).media)).upd
             (UploadNewMedia env media₀ files).media),
         scan := d.scan,
         sheets := applySheets d.sheets
           (processGroups env force
             (groupByType (UploadNewMedia env media₀ files).media)).sheets },
       (processGroups env force
         (groupByType (UploadNewMedia env media₀ files).media)).dec,
       (UploadNewMedia env media₀ files).up +
         (processGroups env force
           (groupByType (UploadNewMedia env media₀ files).media)).up,
       true⟩ := by
  simp only [PDstep]
  rw [if_pos hun, if_pos hpg]

end ProcessDirectorySpec

section CleanRun

theorem rebuild_run_clean (env : Env) (M₁ : List Media)
    (hpg : (processGroups env false (groupByType M₁)).ok = true) :
    (rebuild (processGroups env false (groupByType M₁)).upd M₁).map (fun m => m.Path) =
      M₁.map (fun m => m.Path) ∧
    ∀ kg ∈ groupByType (rebuild (processGroups env false (groupByType M₁)).upd M₁),
      GenerateThumbnails env kg.2 kg.1 false = ⟨kg.2, 0, 0, [], true⟩ := by
  obtain ⟨hupd, hall⟩ := processGroups_ok_spec env false (groupByType M₁) hpg
  have hinv : ∀ k, ((findGroup (processGroups env false (groupByType M₁)).upd k).getD
      []).map (fun m => m.Path) =
      (M₁.filter (fun m => extKey m.Path == k)).map (fun m => m.Path) := by
    intro k
    rw [hupd, findGroup_map (fun k g => (GenerateThumbnails env g k false).state)
      (groupByType M₁) k]
    cases hfg : findGroup (groupByType M₁) k with
    | none =>
      have h₀ : M₁.filter (fun m => extKey m.Path == k) = groupOf M₁ k :=
        (groupOf_eq_filter M₁ k).symm
      rw [h₀, groupOf, hfg]
      rfl
    | some g₁ =>
      have hmem := findGroup_mem (groupByType M₁) k g₁ hfg
      have hokk := hall (k, g₁) hmem
      have hchar := GenerateThumbnails_ok_char env g₁ k hokk
      have h₀ : M₁.filter (fun m => extKey m.Path == k) = g₁ := by
        rw [← groupOf_eq_filter M₁ k, groupOf, hfg, Option.getD_some]
      rw [h₀]
      show ((GenerateThumbnails env g₁ k false).state).map (fun m => m.Path) =
        g₁.map (fun m => m.Path)
      exact hchar.1
  obtain ⟨hpaths, hfilters⟩ :=
    rebuild_spec M₁ (processGroups env false (groupByType M₁)).upd hinv
  refine ⟨hpaths, ?_⟩
  intro kg hkg
  have hflt := mem_groupByType _ kg hkg
  rw [hfilters kg.1] at hflt
  rw [hupd, findGroup_map (fun k g => (GenerateThumbnails env g k false).state)
    (groupByType M₁) kg.1] at hflt
  cases hfg : findGroup (groupByType M₁) kg.1 with
  | none =>
    rw [hfg] at hflt
    simp only [Option.map_none', Option.getD_none] at hflt
    rw [hflt]
    exact GenerateThumbnails_all_skip env [] kg.1 false (by
      intro fs hfs
      rw [chunksPos_nil] at hfs
      simp at hfs)
  | some g₁ =>
    rw [hfg] at hflt
    simp only [Option.map_some', Option.getD_some] at hflt
    have hmem := findGroup_mem (groupByType M₁) kg.1 g₁ hfg
    have hokk := hall (kg.1, g₁) hmem
    have hchar := GenerateThumbnails_ok_char env g₁ kg.1 hokk
    rw [hflt]
    exact GenerateThumbnails_all_skip env _ kg.1 false hchar.2

theorem second_run_clean (env : Env) (d₁ : Dir) (files : List String) (M₂ : List Media)
    (hpaths : ∀ m ∈ M₂, contains files m.Path = true)
    (hfiles : ∀ f ∈ files, containsMedia M₂ f = true)
    (hclean : ∀ kg ∈ groupByType M₂,
      GenerateThumbnails env kg.2 kg.1 false = ⟨kg.2, 0, 0, [], true⟩)
    (hman : d₁.manifest = some (encodeDoc M₂))
    (hMne : M₂ ≠ [])
    (hscan : d₁.scan = some files) :
    (ProcessDirectory env d₁ false).ok = true ∧
    (ProcessDirectory env d₁ false).dec = 0 ∧
    (ProcessDirectory env d₁ false).up = 0 ∧
    (ProcessDirectory env d₁ false).dir.manifest = d₁.manifest := by
  have hload2 : (match LoadThumbsFile d₁.manifest with
      | Except.error LoadErr.notFound => Except.ok []
      | Except.error LoadErr.decodeErr => Except.error ()
      | Except.ok ms => (Except.ok ms : Except Unit (List Media))) = Except.ok M₂ := by
    rw [hman, LoadThumbsFile, decodeDoc_encodeDoc]
  have hrun2 := ProcessDirectory_run env d₁ false M₂ files hload2 hscan
  have hup2 : UploadNewMedia env M₂ files = ⟨M₂, 0, true⟩ :=
    UploadNewMedia_noop env M₂ files hpaths hfiles
  have hpg2 : processGroups env false (groupByType (UploadNewMedia env M₂ files).media) =
      ⟨groupByType M₂, 0, 0, [], true⟩ := by
    rw [hup2]
    exact processGroups_noop env false (groupByType M₂) hclean
  have hstep2 := PDstep_ok env d₁ false M₂ files (by rw [hup2]) (by rw [hpg2])
  rw [hrun2, hstep2]
  refine ⟨rfl, ?_, ?_, ?_⟩
  · show (processGroups env false (groupByType (UploadNewMedia env M₂ files).media)).dec = 0
    rw [hpg2]
  · show (UploadNewMedia env M₂ files).up +
      (processGroups env false (groupByType (UploadNewMedia env M₂ files).media)).up = 0
    rw [hpg2, hup2]
    rfl
  · show SaveThumbsFile d₁.manifest
      (rebuild (processGroups env false
          (groupByType (UploadNewMedia env M₂ files).media)).upd
        (UploadNewMedia env M₂ files).media) = d₁.manifest
    rw [hpg2, hup2]
    show SaveThumbsFile d₁.manifest (rebuild (groupByType M₂) M₂) = d₁.manifest
    rw [rebuild_groupByType_self, hman, SaveThumbsFile,
      if_neg (fun h0 => hMne (List.length_eq_zero.mp h0))]

end CleanRun

section ClaimC1

/-- C1: idempotent clean run.  If ProcessDirectory with force = false
succeeds, then a second call on the resulting directory state (same
environment, unchanged files) also succeeds, performs zero image decodes
and zero upload attempts (every batch is classified clean and skipped),
and leaves the manifest content unchanged. -/
theorem C1_idempotent_clean_run (env : Env) (d : Dir)
    (h1 : (ProcessDirectory env d false).ok = true) :
    (ProcessDirectory env (ProcessDirectory env d false).dir false).ok = true ∧
    (ProcessDirectory env (ProcessDirectory env d false).dir false).dec = 0 ∧
    (ProcessDirectory env (ProcessDirectory env d false).dir false).up = 0 ∧
    (ProcessDirectory env (ProcessDirectory env d false).dir false).dir.manifest =
      (ProcessDirectory env d false).dir.manifest := by
  obtain ⟨media₀, files, hload, hscan⟩ := ProcessDirectory_ok_inv env d false h1
  have hrun1 : ProcessDirectory env d false = PDstep env d false media₀ files :=
    ProcessDirectory_run env d false media₀ files hload hscan
  have hok1 : (PDstep env d false media₀ files).ok = true := by rw [← hrun1]; exact h1
  obtain ⟨hun, hpg⟩ := PDstep_ok_inv env d false media₀ files hok1
  have hstep1 := PDstep_ok env d false media₀ files hun hpg
  have hdir1 : (ProcessDirectory env d false).dir =
      { manifest := SaveThumbsFile d.manifest
          (rebuild (processGroups env false
              (groupByType (UploadNewMedia env media₀ files).media)).upd
            (UploadNewMedia env media₀ files).media),
        scan := d.scan,
        sheets := applySheets d.sheets
          (processGroups env false
            (groupByType (UploadNewMedia env media₀ files).media)).sheets } := by
    rw [hrun1, hstep1]
  have hscan2 : (ProcessDirectory env d false).dir.scan = some files := by
    rw [hdir1]
    exact hscan
  have hUchar := UploadNewMedia_ok_char env media₀ files hun
  have hM₁mem : ∀ m ∈ (UploadNewMedia env media₀ files).media,
      contains files m.Path = true := by
    intro m hm
    have hm₂ : m ∈ media₀.filter (fun m => contains files m.Path) ++
        (files.filter (fun f => !containsMedia media₀ f)).map
          (fun f => ({ Path := f } : Media)) := by
      rw [hUchar] at hm
      exact hm
    rcases List.mem_append.mp hm₂ with hl | hr
    · exact (List.mem_filter.mp hl).2
    · obtain ⟨f, hf, rfl⟩ := List.mem_map.mp hr
      exact contains_of_mem (List.mem_filter.mp hf).1
  have hfilesin : ∀ f ∈ files,
      f ∈ (UploadNewMedia env media₀ files).media.map (fun m => m.Path) := by
    intro f hf
    have hmed : (UploadNewMedia env media₀ files).media =
        media₀.filter (fun m => contains files m.Path) ++
        (files.filter (fun f => !containsMedia media₀ f)).map
          (fun f => ({ Path := f } : Media)) := by
      rw [hUchar]
    rw [hmed, List.map_append]
    cases hcm : containsMedia media₀ f with
    | false =>
      refine List.mem_append.mpr (Or.inr ?_)
      have hmm : ((files.filter (fun f => !containsMedia media₀ f)).map
          (fun f => ({ Path := f } : Media))).map (fun m => m.Path) =
          files.filter (fun f => !containsMedia media₀ f) := by
        rw [List.map_map]
        exact List.map_id _
      rw [hmm]
      exact List.mem_filter.mpr ⟨hf, by simp [hcm]⟩
    | true =>
      obtain ⟨m, hm, hp⟩ := List.mem_map.mp ((containsMedia_eq_mem media₀ f).mp hcm)
      refine List.mem_append.mpr (Or.inl ?_)
      refine List.mem_map.mpr ⟨m, List.mem_filter.mpr ⟨hm, ?_⟩, hp⟩
      show contains files m.Path = true
      rw [hp]
      exact contains_of_mem hf
  obtain ⟨hpaths2, hclean2⟩ :=
    rebuild_run_clean env (UploadNewMedia env media₀ files).media hpg
  by_cases hMe : rebuild (processGroups env false
      (groupByType (UploadNewMedia env media₀ files).media)).upd
      (UploadNewMedia env media₀ files).media = []
  · have hM₁nil : (UploadNewMedia env media₀ files).media = [] := by
      have h0 : (UploadNewMedia env media₀ files).media.map (fun m => m.Path) = [] := by
        rw [← hpaths2, hMe, List.map_nil]
      exact List.map_eq_nil_iff.mp h0
    have hM₁nil₂ := hM₁nil
    rw [hUchar] at hM₁nil₂
    have happ : media₀.filter (fun m => contains files m.Path) ++
        (files.filter (fun f => !containsMedia media₀ f)).map
          (fun f => ({ Path := f } : Media)) = [] := hM₁nil₂
    obtain ⟨hfiltnil, hmapnil⟩ := List.append_eq_nil.mp happ
    have haddnil : files.filter (fun f => !containsMedia media₀ f) = [] :=
      List.map_eq_nil_iff.mp hmapnil
    have hup0 : (UploadNewMedia env media₀ files).up = 0 := by
      rw [hUchar]
      show (files.filter (fun f => !containsMedia media₀ f)).length = 0
      rw [haddnil]
      rfl
    have hpgnil : processGroups env false
        (groupByType (UploadNewMedia env media₀ files).media) = ⟨[], 0, 0, [], true⟩ := by
      rw [hM₁nil]
      rfl
    have hman1 : (ProcessDirectory env d false).dir.manifest = d.manifest := by
      rw [hdir1]
      show SaveThumbsFile d.manifest (rebuild (processGroups env false
          (groupByType (UploadNewMedia env media₀ files).media)).upd
        (UploadNewMedia env media₀ files).media) = d.manifest
      rw [hMe, SaveThumbsFile, if_pos (show ([] : List Media).length = 0 from rfl)]
    have hload2 : (match LoadThumbsFile (ProcessDirectory env d false).dir.manifest with
        | Except.error LoadErr.notFound => Except.ok []
        | Except.error LoadErr.decodeErr => Except.error ()
        | Except.ok ms => (Except.ok ms : Except Unit (List Media))) =
        Except.ok media₀ := by
      rw [hman1]
      exact hload
    have hrun2 := ProcessDirectory_run env (ProcessDirectory env d false).dir false
      media₀ files hload2 hscan2
    have hstep2 := PDstep_ok env (ProcessDirectory env d false).dir false media₀ files hun
      (by rw [hpgnil])
    rw [hrun2, hstep2]
    refine ⟨rfl, ?_, ?_, ?_⟩
    · show (processGroups env false
        (groupByType (UploadNewMedia env media₀ files).media)).dec = 0
      rw [hpgnil]
    · show (UploadNewMedia env media₀ files).up +
        (processGroups env false
          (groupByType (UploadNewMedia env media₀ files).media)).up = 0
      rw [hpgnil, hup0]
      rfl
    · show SaveThumbsFile (ProcessDirectory env d false).dir.manifest
        (rebuild (processGroups env false
            (groupByType (UploadNewMedia env media₀ files).media)).upd
          (UploadNewMedia env media₀ files).media) =
        (ProcessDirectory env d false).dir.manifest
      rw [hpgnil, hM₁nil]
      show SaveThumbsFile (ProcessDirectory env d false).dir.manifest [] =
        (ProcessDirectory env d false).dir.manifest
      rw [SaveThumbsFile, if_pos (show ([] : List Media).length = 0 from rfl)]
  · have hman1 : (ProcessDirectory env d false).dir.manifest =
        some (encodeDoc (rebuild (processGroups env false
            (groupByType (UploadNewMedia env media₀ files).media)).upd
          (UploadNewMedia env media₀ files).media)) := by
      rw [hdir1]
      show SaveThumbsFile d.manifest (rebuild (processGroups env false
          (groupByType (UploadNewMedia env media₀ files).media)).upd
        (UploadNewMedia env media₀ files).media) =
        some (encodeDoc (rebuild (processGroups env false
            (groupByType (UploadNewMedia env media₀ files).media)).upd
          (UploadNewMedia env media₀ files).media))
      rw [SaveThumbsFile, if_neg (fun h0 => hMe (List.length_eq_zero.mp h0))]
    have hpaths' : ∀ m ∈ rebuild (processGroups env false
        (groupByType (UploadNewMedia env media₀ files).media)).upd
        (UploadNewMedia env media₀ files).media, contains files m.Path = true := by
      intro m hm
      have hmp : m.Path ∈ (rebuild (processGroups env false
          (groupByType (UploadNewMedia env media₀ files).media)).upd
          (UploadNewMedia env media₀ files).media).map (fun m => m.Path) :=
        List.mem_map.mpr ⟨m, hm, rfl⟩
      rw [hpaths2] at hmp
      obtain ⟨m₁, hm₁, hp₁⟩ := List.mem_map.mp hmp
      have h := hM₁mem m₁ hm₁
      rw [hp₁] at h
      exact h
    have hfiles' : ∀ f ∈ files, containsMedia (rebuild (processGroups env false
        (groupByType (UploadNewMedia env media₀ files).media)).upd
        (UploadNewMedia env media₀ files).media) f = true := by
      intro f hf
      refine (containsMedia_eq_mem _ f).mpr ?_
      rw [hpaths2]
      exact hfilesin f hf
    exact second_run_clean env (ProcessDirectory env d false).dir files
      (rebuild (processGroups env false
          (groupByType (UploadNewMedia env media₀ files).media)).upd
        (UploadNewMedia env media₀ files).media)
      hpaths' hfiles' hclean2 hman1 hMe hscan2

/-- Witness environment for C1: one decodable image, readable and
uploadable files. -/
def envC1 : Env :=
  ⟨fun p => if p = "a.png" then some ⟨4, 3, 9⟩ else none,
   fun _ => some [1, 2, 3],
   fun _ => true⟩

/-- Witness directory for C1: no manifest yet, one scanned file. -/
def dirC1 : Dir := ⟨none, some ["a.png"], fun _ => none⟩

/-- Witness for C1 at a concrete successful run. -/
theorem C1_witness :
    (ProcessDirectory envC1 dirC1 false).ok = true ∧
    ((ProcessDirectory envC1 (ProcessDirectory envC1 dirC1 false).dir false).ok = true ∧
     (ProcessDirectory envC1 (ProcessDirectory envC1 dirC1 false).dir false).dec = 0 ∧
     (ProcessDirectory envC1 (ProcessDirectory envC1 dirC1 false).dir false).up = 0 ∧
     (ProcessDirectory envC1 (ProcessDirectory envC1 dirC1 false).dir false).dir.manifest =
       (ProcessDirectory envC1 dirC1 false).dir.manifest) :=
  ⟨by decide, C1_idempotent_clean_run envC1 dirC1 (by decide)⟩

end ClaimC1

section ClaimC7

theorem BatchesRel_getElem (env : Env) (format : String) (force : Bool) :
    ∀ {b : Nat} {bs outs : List (List Media)},
      BatchesRel env format force b bs outs →
      outs.length = bs.length ∧
      ∀ i, i < bs.length →
        ∃ files out, bs[i]? = some files ∧ outs[i]? = some out ∧
          batchResult env format force (b + i) files out := by
  intro b bs outs h
  induction h with
  | nil => exact ⟨rfl, fun i hi => absurd hi (by simp)⟩
  | cons b files out bs outs hres hrest ih =>
    refine ⟨by simp [ih.1], ?_⟩
    intro i hi
    cases i with
    | zero => exact ⟨files, out, by simp, by simp, by simpa using hres⟩
    | succ j =>
      obtain ⟨fs, o, h1, h2, h3⟩ := ih.2 j (by simpa using hi)
      refine ⟨fs, o, by simpa using h1, by simpa using h2, ?_⟩
      have hb : b + 1 + j = b + (j + 1) := by omega
      rwa [hb] at h3

/-- C7 (amended): when the batch loop succeeds, its state is the
concatenation of per-batch outputs; a batch left clean is returned
unchanged, and every record of a regenerated batch with index i carries
the path "thumbnails_&lt;i&gt;.&lt;format&gt;?crc=&lt;h&gt;" where h is the
CRC-32 (IEEE) of the sheet bytes in lowercase hex; identical sheet bytes
always give an identical path (the converse fails: see the CRC collision
counterexample). -/
theorem C7_stamped_path_amended (env : Env) (media : List Media) (format : String)
    (force : Bool)
    (hok : (GenerateThumbnails env media format force).ok = true) :
    (∃ outs : List (List Media),
      (GenerateThumbnails env media format force).state = outs.flatten ∧
      outs.length = (chunksPos (maxPerRow * maxRows - 1) media).length ∧
      ∀ i, i < (chunksPos (maxPerRow * maxRows - 1) media).length →
        ∃ files, (chunksPos (maxPerRow * maxRows - 1) media)[i]? = some files ∧
          ((skipBatch force files = true ∧ outs[i]? = some files) ∨
           (skipBatch force files = false ∧
             ∃ B, (GenerateThumbnail env.img files format).bytes = some B ∧
               ∀ m ∈ (outs[i]?).getD [],
                 m.ThumbPath = "thumbnails_" ++ toString i ++ "." ++ format ++
                   "?crc=" ++ crc32sum B))) ∧
    ∀ (b : Nat) (B B' : Bytes), B = B' →
      stampPath b format B = stampPath b format B' := by
  refine ⟨?_, fun b B B' h => by rw [h]⟩
  rw [GenerateThumbnails] at hok ⊢
  obtain ⟨outs, hstate, hrel⟩ :=
    runBatches_ok_spec env format force (chunksPos (maxPerRow * maxRows - 1) media) 0 hok
  obtain ⟨hlen, hget⟩ := BatchesRel_getElem env format force hrel
  refine ⟨outs, hstate, hlen, ?_⟩
  intro i hi
  obtain ⟨files, out, h1, h2, h3⟩ := hget i hi
  refine ⟨files, h1, ?_⟩
  rcases h3 with ⟨hskip, hout⟩ | ⟨hskip, B, hB, hout⟩
  · exact Or.inl ⟨hskip, by rw [h2, hout]⟩
  · refine Or.inr ⟨hskip, B, hB, ?_⟩
    intro m hm
    rw [h2, Option.getD_some, hout] at hm
    obtain ⟨m₀, hm₀, rfl⟩ := List.mem_map.mp hm
    show stampPath (0 + i) format B =
      "thumbnails_" ++ toString i ++ "." ++ format ++ "?crc=" ++ crc32sum B
    rw [Nat.zero_add, stampPath, thumbPathName]

/-- Witness environment for C7: one decodable image. -/
def envC7W : Env :=
  ⟨fun p => if p = "a.png" then some ⟨4, 3, 9⟩ else none,
   fun _ => none,
   fun _ => true⟩

/-- Witness batch list for C7. -/
def mediaC7W : List Media := [{ Path := "a.png" }]

/-- Witness for C7 at a concrete successful generation run. -/
theorem C7_amended_witness :
    (GenerateThumbnails envC7W mediaC7W "png" false).ok = true ∧
    ((∃ outs : List (List Media),
      (GenerateThumbnails envC7W mediaC7W "png" false).state = outs.flatten ∧
      outs.length = (chunksPos (maxPerRow * maxRows - 1) mediaC7W).length ∧
      ∀ i, i < (chunksPos (maxPerRow * maxRows - 1) mediaC7W).length →
        ∃ files, (chunksPos (maxPerRow * maxRows - 1) mediaC7W)[i]? = some files ∧
          ((skipBatch false files = true ∧ outs[i]? = some files) ∨
           (skipBatch false files = false ∧
             ∃ B, (GenerateThumbnail envC7W.img files "png").bytes = some B ∧
               ∀ m ∈ (outs[i]?).getD [],
                 m.ThumbPath = "thumbnails_" ++ toString i ++ "." ++ ("png" : String) ++
                   "?crc=" ++ crc32sum B))) ∧
    ∀ (b : Nat) (B B' : Bytes), B = B' →
      stampPath b "png" B = stampPath b "png" B') :=
  ⟨by decide, C7_stamped_path_amended envC7W mediaC7W "png" false (by decide)⟩

end ClaimC7

end Thumbnailer
